import Mathlib

/-!
# Verification of the similarity cache and request coalescer

Shallow embedding of `src/backend/app/services/similarity_cache.py` and
`src/backend/app/services/request_deduplicator.py` (repository
rainerstudios/aichat).

Modelling conventions:
* Python `dict` (insertion-ordered) is modelled as an association list
  `List (key × value)`; `dict[k] = v` replaces the value in place when the
  key is present (Python keeps the original position) and appends otherwise;
  `del dict[k]` removes the key's entry.
* Python `set` is modelled as a duplicate-free list built with
  `insertIfAbsent`; all uses either take a minimum, test membership or count,
  so the iteration order a real `set` would have is irrelevant to the claims.
* `time.time()` timestamps and TTL values are modelled as `Int` time units
  passed explicitly to each operation.
* The external hash primitives (`hashlib.sha256(...).hexdigest()`,
  `hashlib.md5(...).hexdigest()`, `mmh3.hash(s, seed, signed=False)`) are
  opaque pure functions; they are supplied as a `HashFns` parameter.  No
  claim depends on any property of these functions beyond determinism.
* Float arithmetic: similarity is `matches / 64`, which is exactly
  representable in binary floating point, and the four threshold constants
  0.95 / 0.75 / 0.6 / 0.4 round to floats whose comparison cut-offs against
  multiples of 1/64 coincide with the exact rational cut-offs, so similarity
  scores and thresholds are modelled as `ℚ` without loss of faithfulness.
* Text normalization models Python `str.lower` / `str.strip` / `re.sub`
  over the ASCII range used by the cache keys.
-/

/-- Lookup in an insertion-ordered association list (Python `d[k]` /
`d.get(k)` / `k in d`). -/
def dlook {α β : Type} [DecidableEq α] : List (α × β) → α → Option β
  | [], _ => none
  | (k, v) :: rest, a => if a = k then some v else dlook rest a

/-- `d[k] = v` on a Python dict: replace in place when present (the entry
keeps its position), append otherwise. -/
def insertReplace {α β : Type} [DecidableEq α] : List (α × β) → α → β → List (α × β)
  | [], k, v => [(k, v)]
  | (k', v') :: rest, k, v =>
    if k = k' then (k, v) :: rest else (k', v') :: insertReplace rest k v

/-- `del d[k]` on a Python dict: remove the entry for `k`. -/
def eraseKey {α β : Type} [DecidableEq α] : List (α × β) → α → List (α × β)
  | [], _ => []
  | (k', v') :: rest, k => if k = k' then rest else (k', v') :: eraseKey rest k

/-- `s.add(x)` on a Python set modelled as a duplicate-free list. -/
def insertIfAbsent {α : Type} [DecidableEq α] (x : α) (l : List α) : List α :=
  if x ∈ l then l else l ++ [x]

/-- The keys of an association list. -/
def keysOf {α β : Type} (l : List (α × β)) : List α := l.map Prod.fst

/-- A dict has each key at most once. -/
def NodupKeys {α β : Type} (l : List (α × β)) : Prop := (keysOf l).Nodup

instance {α β : Type} [DecidableEq α] (l : List (α × β)) : Decidable (NodupKeys l) := by
  unfold NodupKeys
  infer_instance

/-- The external hash primitives used by the source, as opaque pure
functions: `sha256hex s` models `hashlib.sha256(s.encode()).hexdigest()`,
`md5hex s` models `hashlib.md5(s.encode()).hexdigest()`, and `mmh3u32 s seed`
models `mmh3.hash(s, seed=seed, signed=False)`. -/
structure HashFns where
  sha256hex : String → String
  md5hex : String → String
  mmh3u32 : String → Nat → Nat

/-- Python `\s` whitespace (ASCII range): space, tab, newline, carriage
return, vertical tab, form feed. -/
def isPySpace (c : Char) : Bool :=
  c = ' ' || c = Char.ofNat 9 || c = Char.ofNat 10 || c = Char.ofNat 13 ||
  c = Char.ofNat 11 || c = Char.ofNat 12

/-- `text.lower()` over the ASCII range. -/
def lowerStr (s : String) : String := String.mk (s.toList.map Char.toLower)

/-- `text.strip()`: drop leading and trailing whitespace. -/
def stripChars (l : List Char) : List Char :=
  ((l.dropWhile isPySpace).reverse.dropWhile isPySpace).reverse

/-- Core of `re.sub(r'\s+', ' ', text)`: replace every maximal whitespace
run by a single space.  The boolean records whether the previous character
was part of a whitespace run. -/
def collapseAux : Bool → List Char → List Char
  | _, [] => []
  | prevSpace, c :: rest =>
    if isPySpace c then
      if prevSpace then collapseAux true rest else ' ' :: collapseAux true rest
    else c :: collapseAux false rest

/-- `re.sub(r'\s+', ' ', text.lower().strip())`, the normalization shared by
`_generate_query_hash` and `_get_shingles`. -/
def normalizeText (s : String) : String :=
  String.mk (collapseAux false (stripChars (lowerStr s).toList))

/-- `text.split()`: split on whitespace runs, no empty words. -/
def splitWordsAux : List Char → List Char → List String
  | acc, [] => if acc.isEmpty then [] else [String.mk acc.reverse]
  | acc, c :: rest =>
    if isPySpace c then
      if acc.isEmpty then splitWordsAux [] rest
      else String.mk acc.reverse :: splitWordsAux [] rest
    else splitWordsAux (c :: acc) rest

/-- `text.split()` on a string. -/
def splitWords (s : String) : List String := splitWordsAux [] s.toList

/-- `MinHashLSH._get_shingles`: word `k`-shingles of the normalized text,
falling back to single words for short queries.  The Python `set` of
shingles is modelled as a duplicate-free list. -/
def getShingles (text : String) (k : Nat := 2) : List String :=
  let t := normalizeText text
  let words := splitWords t
  let base := (List.range (words.length + 1 - k)).foldl
    (fun acc i => insertIfAbsent (String.intercalate " " ((words.drop i).take k)) acc) []
  if words.length < k || base.length < 3 then
    words.foldl (fun acc w => insertIfAbsent w acc) base
  else base

/-- Minimum of a list of naturals (the source folds `min` starting from
`float('inf')` over a nonempty set). -/
def minList : List Nat → Nat
  | [] => 0
  | x :: xs => xs.foldl Nat.min x

/-- `MinHashLSH._compute_minhash`: for each seed `0..numPerm-1` the minimum
`mmh3` hash over all shingles; all zeros for an empty shingle set. -/
def computeMinhash (H : HashFns) (numPerm : Nat) (shingles : List String) : List Nat :=
  if shingles.isEmpty then List.replicate numPerm 0
  else (List.range numPerm).map (fun i => minList (shingles.map (fun sh => H.mmh3u32 sh i)))

/-- Python `str(tuple_of_ints)`, applied to a signature band before `md5`. -/
def tupleStr : List Nat → String
  | [x] => "(" ++ toString x ++ ",)"
  | xs => "(" ++ String.intercalate ", " (xs.map toString) ++ ")"

/-- The (band, bucket) key: `hashlib.md5(str(band_values).encode()).hexdigest()`. -/
def bucketKey (H : HashFns) (vals : List Nat) : String := H.md5hex (tupleStr vals)

/-- `signature[start:end]` for band `b` with `rows` rows per band. -/
def bandSlice (sig : List Nat) (rows b : Nat) : List Nat := (sig.drop (b * rows)).take rows

/-- The LSH bucket table `band_id -> bucket_hash -> set of query_hashes`
(a `defaultdict` of `defaultdict` of `set`). -/
def LshBuckets : Type := List (Nat × List (String × List String))

instance : Inhabited LshBuckets := ⟨([] : List (Nat × List (String × List String)))⟩

/-- The bucket map of a band (`defaultdict`: empty when absent). -/
def getBand (B : LshBuckets) (band : Nat) : List (String × List String) :=
  (dlook (B : List (Nat × List (String × List String))) band).getD []

/-- The fingerprint set stored in one (band, bucket) slot. -/
def slotContents (B : LshBuckets) (band : Nat) (key : String) : List String :=
  (dlook (getBand B band) key).getD []

/-- `self.lsh_buckets[band][bucket_hash].add(query_hash)`. -/
def addToSlot (B : LshBuckets) (band : Nat) (key fp : String) : LshBuckets :=
  let bandMap := getBand B band
  let bucket := (dlook bandMap key).getD []
  insertReplace (B : List (Nat × List (String × List String))) band
    (insertReplace bandMap key (insertIfAbsent fp bucket))

/-- `MinHashLSH`: permutation count, acceptance threshold and the bucket
table.  `bands = int(num_perm / 4)` and `rows = int(num_perm / bands)` are
derived fields. -/
structure MinHashLSH where
  numPerm : Nat
  threshold : ℚ
  buckets : LshBuckets := ([] : List (Nat × List (String × List String)))

def MinHashLSH.bands (L : MinHashLSH) : Nat := L.numPerm / 4

def MinHashLSH.rows (L : MinHashLSH) : Nat := L.numPerm / L.bands

/-- `MinHashLSH._add_to_lsh`: record the fingerprint under every band's
(band, bucket) slot for this signature. -/
def addToLsh (H : HashFns) (L : MinHashLSH) (fp : String) (sig : List Nat) : MinHashLSH :=
  let B' := (List.range L.bands).foldl
    (fun B band => addToSlot B band (bucketKey H (bandSlice sig L.rows band)) fp) L.buckets
  { L with buckets := B' }

/-- `MinHashLSH._get_candidates`: union of the fingerprint sets in every
(band, bucket) slot the signature maps to. -/
def getCandidates (H : HashFns) (L : MinHashLSH) (sig : List Nat) : List String :=
  (List.range L.bands).foldl
    (fun acc band =>
      (slotContents L.buckets band (bucketKey H (bandSlice sig L.rows band))).foldl
        (fun a fp => insertIfAbsent fp a) acc) []

/-- `MinHashLSH.add_query`: shingle, sign and index a query. -/
def addQuery (H : HashFns) (L : MinHashLSH) (q fp : String) : MinHashLSH :=
  addToLsh H L fp (computeMinhash H L.numPerm (getShingles q))

/-- `sum(1 for a, b in zip(sig, csig) if a == b)`. -/
def countMatches (a b : List Nat) : Nat :=
  ((a.zip b).filter (fun p => p.1 = p.2)).length

/-- Descending-by-similarity comparison used to model
`sorted(..., key=lambda x: x[1], reverse=True)` (stable). -/
def simGE (a b : String × ℚ) : Prop := b.2 ≤ a.2

instance : DecidableRel simGE := fun a b => by unfold simGE; infer_instance

/-- `MinHashLSH.find_similar`: shortlist candidates from the LSH buckets,
recompute each stored candidate's signature, keep those whose agreement
fraction reaches the threshold, and sort by similarity descending. -/
def findSimilar (H : HashFns) (L : MinHashLSH) (q : String)
    (storedQueries : List (String × String)) : List (String × ℚ) :=
  let sig := computeMinhash H L.numPerm (getShingles q)
  let cands := getCandidates H L sig
  let scored := cands.filterMap (fun h =>
    match dlook storedQueries h with
    | some cq =>
      let csig := computeMinhash H L.numPerm (getShingles cq)
      let s : ℚ := (countMatches sig csig : ℚ) / (L.numPerm : ℚ)
      if L.threshold ≤ s then some (h, s) else none
    | none => none)
  List.insertionSort simGE scored

/-- `CacheEntry`. -/
structure CacheEntry where
  response : String
  timestamp : Int
  queryHash : String
  gameType : String
  hitCount : Nat := 0
deriving DecidableEq

/-- The `self.stats` counter dict. -/
structure CacheStats where
  hits : Nat := 0
  misses : Nat := 0
  evictions : Nat := 0
  totalQueries : Nat := 0
deriving DecidableEq

/-- `SimilarityCache` state. -/
structure SimilarityCache where
  ttlSeconds : Int
  maxSize : Nat
  thresholdName : String
  thresholdValue : ℚ
  cache : List (String × CacheEntry) := []
  queryIndex : List (String × String) := []
  lsh : MinHashLSH
  stats : CacheStats := {}

/-- `SimilarityCache.THRESHOLDS` (the float constants as exact rationals;
see the header note on float faithfulness). -/
def THRESHOLDS : List (String × ℚ) :=
  [("exact", 95/100), ("strong", 75/100), ("broad", 60/100), ("loose", 40/100)]

/-- `SimilarityCache.__init__`. -/
def initCache (ttlSeconds : Int) (maxSize : Nat) (threshold : String) : SimilarityCache :=
  let tv := (dlook THRESHOLDS threshold).getD (75/100)
  { ttlSeconds := ttlSeconds, maxSize := maxSize, thresholdName := threshold,
    thresholdValue := tv, lsh := { numPerm := 64, threshold := tv } }

/-- Python `game_type or 'generic'` (`None` and `""` are falsy). -/
def orGeneric : Option String → String
  | none => "generic"
  | some s => if s = "" then "generic" else s

/-- `SimilarityCache._generate_query_hash`. -/
def genQueryHash (H : HashFns) (q : String) (gameType : Option String) : String :=
  H.sha256hex (normalizeText q ++ "|" ++ orGeneric gameType)

/-- `SimilarityCache._cleanup_expired` at explicit time `now`: drop every
entry with `now - timestamp > ttl` from the cache and the query index,
returning the number of expired keys. -/
def cleanupExpired (now : Int) (c : SimilarityCache) : SimilarityCache × Nat :=
  let expired := keysOf (c.cache.filter (fun kv => c.ttlSeconds < now - kv.2.timestamp))
  (⟨c.ttlSeconds, c.maxSize, c.thresholdName, c.thresholdValue,
    expired.foldl (fun d k => eraseKey d k) c.cache,
    expired.foldl (fun d k => eraseKey d k) c.queryIndex,
    c.lsh, c.stats⟩, expired.length)

/-- Ascending order on `(hit_count, timestamp)` used by `_evict_lru`'s
`sorted(..., key=lambda x: (x[1].hit_count, x[1].timestamp))` (stable). -/
def rankLE (a b : String × CacheEntry) : Prop :=
  a.2.hitCount < b.2.hitCount ∨ (a.2.hitCount = b.2.hitCount ∧ a.2.timestamp ≤ b.2.timestamp)

instance : DecidableRel rankLE := fun a b => by unfold rankLE; infer_instance

/-- `SimilarityCache._evict_lru`: when the store has reached capacity,
remove the first `max(1, n // 5)` entries of the stable sort by
`(hit_count, timestamp)` from the cache and the query index; returns the
state and the number of evicted entries (also added to `stats.evictions`). -/
def evictLru (c : SimilarityCache) : SimilarityCache × Nat :=
  if c.cache.length < c.maxSize then (c, 0)
  else
    let sortedEntries := List.insertionSort rankLE c.cache
    let evictCount := max 1 (sortedEntries.length / 5)
    let toEvict := keysOf (sortedEntries.take evictCount)
    let step := fun (acc : List (String × CacheEntry) × List (String × String) × Nat) k =>
      ((eraseKey acc.1 k : List (String × CacheEntry)),
       (eraseKey acc.2.1 k : List (String × String)),
       acc.2.2 + (if (dlook acc.1 k).isSome then 1 else 0))
    let res := toEvict.foldl step (c.cache, c.queryIndex, 0)
    (⟨c.ttlSeconds, c.maxSize, c.thresholdName, c.thresholdValue, res.1, res.2.1, c.lsh,
      { c.stats with evictions := c.stats.evictions + res.2.2 }⟩, res.2.2)

/-- The game-type compatibility test inside `SimilarityCache.get`:
`game_type is None or entry.game_type == game_type or entry.game_type == 'generic'`. -/
def compatible (gameType : Option String) (e : CacheEntry) : Bool :=
  match gameType with
  | none => true
  | some s => e.gameType = s || e.gameType = "generic"

/-- Round a rational to the nearest integer, ties to even (the rounding
used by Python string formatting on an exactly represented value). -/
def roundHalfEven (x : ℚ) : Int :=
  let n := x.num
  let d : Int := (x.den : Int)
  let q := Int.ediv n d
  let r := n - q * d
  if d < 2 * r then q + 1
  else if 2 * r < d then q
  else if q % 2 = 0 then q else q + 1

/-- Python `f"{s:.1%}"`: the value as a percentage with one decimal digit. -/
def formatPct (s : ℚ) : String :=
  let tenths := roundHalfEven (s * 1000)
  toString (Int.ediv tenths 10) ++ "." ++ toString (Int.emod tenths 10) ++ "%"

/-- The annotation appended on a similarity hit:
`"\n\n*[Similar query found in cache - {similarity:.1%} match]*"`. -/
def cacheNote (s : ℚ) : String :=
  "\n\n*[Similar query found in cache - " ++ formatPct s ++ " match]*"

/-- The candidate loop at the end of `SimilarityCache.get`: walk the
similarity-sorted candidates; on the first one still present in the cache
and game-type compatible, bump its hit counter and return the annotated
response; otherwise count a miss. -/
def simLoop (gameType : Option String) :
    List (String × ℚ) → SimilarityCache → Option String × SimilarityCache
  | [], c => (none, { c with stats := { c.stats with misses := c.stats.misses + 1 } })
  | (h, s) :: rest, c =>
    match dlook c.cache h with
    | some e =>
      if compatible gameType e then
        (some (e.response ++ cacheNote s),
         { c with cache := insertReplace c.cache h { e with hitCount := e.hitCount + 1 },
                  stats := { c.stats with hits := c.stats.hits + 1 } })
      else simLoop gameType rest c
    | none => simLoop gameType rest c

/-- `SimilarityCache.get` at explicit time `now`. -/
def cacheGet (H : HashFns) (c0 : SimilarityCache) (q : String) (gameType : Option String)
    (now : Int) : Option String × SimilarityCache :=
  let c1 := { c0 with stats := { c0.stats with totalQueries := c0.stats.totalQueries + 1 } }
  let c := (cleanupExpired now c1).1
  let qh := genQueryHash H q gameType
  match dlook c.cache qh with
  | some e =>
    (some e.response,
     { c with cache := insertReplace c.cache qh { e with hitCount := e.hitCount + 1 },
              stats := { c.stats with hits := c.stats.hits + 1 } })
  | none =>
    simLoop gameType (findSimilar H c.lsh q c.queryIndex) c

/-- `SimilarityCache.set` at explicit time `now`. -/
def cacheSet (H : HashFns) (c0 : SimilarityCache) (q resp : String)
    (gameType : Option String) (now : Int) : SimilarityCache :=
  let qh := genQueryHash H q gameType
  let c := (evictLru c0).1
  let e : CacheEntry :=
    { response := resp, timestamp := now, queryHash := qh,
      gameType := orGeneric gameType, hitCount := 0 }
  { c with cache := insertReplace c.cache qh e,
           queryIndex := insertReplace c.queryIndex qh q,
           lsh := addQuery H c.lsh q qh }

/-- `SimilarityCache.clear`. -/
def cacheClear (c : SimilarityCache) : SimilarityCache :=
  { c with cache := [], queryIndex := [],
           lsh := { numPerm := 64, threshold := c.thresholdValue }, stats := {} }

/-- The numeric fields of the dict returned by `SimilarityCache.get_stats`
(`cache_status` is the constant `"enabled"` and `memory_usage` a Python
`repr` length, both omitted as irrelevant to every claim). -/
structure StatsReport where
  totalEntries : Nat
  validEntries : Nat
  expiredEntries : Nat
  maxSize : Nat
  ttlSeconds : Int
  hitRate : ℚ
  totalHits : Nat
  totalMisses : Nat
  totalQueries : Nat
  evictions : Nat
  lshBuckets : Nat

/-- `SimilarityCache.get_stats` at explicit time `now`. -/
def getStats (c : SimilarityCache) (now : Int) : StatsReport :=
  let valid := (c.cache.filter (fun kv => now - kv.2.timestamp < c.ttlSeconds)).length
  { totalEntries := c.cache.length
    validEntries := valid
    expiredEntries := c.cache.length - valid
    maxSize := c.maxSize
    ttlSeconds := c.ttlSeconds
    hitRate := ((c.stats.hits : ℚ) / ((max 1 c.stats.totalQueries : Nat) : ℚ)) * 100
    totalHits := c.stats.hits
    totalMisses := c.stats.misses
    totalQueries := c.stats.totalQueries
    evictions := c.stats.evictions
    lshBuckets := (c.lsh.buckets.map (fun b => b.2.length)).sum }

/-- `SimilarityCache.set_threshold`: known tier names switch the tier and
rebuild the LSH index from the query index; the source's `else` branch does
nothing and raises nothing, so the result is `.ok` in both branches (the
`Except` channel records that no Python exception escapes). -/
def setThreshold (H : HashFns) (threshold : String) (c : SimilarityCache) :
    Except String SimilarityCache :=
  if (dlook THRESHOLDS threshold).isSome then
    let tv := (dlook THRESHOLDS threshold).getD (75/100)
    let lsh0 : MinHashLSH := { numPerm := 64, threshold := tv }
    Except.ok { c with thresholdName := threshold, thresholdValue := tv,
                       lsh := c.queryIndex.foldl (fun L kv => addQuery H L kv.2 kv.1) lsh0 }
  else Except.ok c

/-- Total bucket-membership count of a fingerprint across every band and
bucket of the LSH table. -/
def countFp (B : LshBuckets) (fp : String) : Nat :=
  ((B : List (Nat × List (String × List String))).map
    (fun band => ((band.2.map (fun b => if fp ∈ b.2 then 1 else 0)).sum : Nat))).sum

/-- A list of `set` operations applied in order (query, response, game
type, time), for stating invariants over every reachable store. -/
def applySets (H : HashFns) (ops : List (String × String × Option String × Int))
    (c : SimilarityCache) : SimilarityCache :=
  ops.foldl (fun acc op => cacheSet H acc op.1 op.2.1 op.2.2.1 op.2.2.2) c

/-! ## Order instances for the two stable sorts -/

instance : IsTotal (String × CacheEntry) rankLE := ⟨fun a b => by unfold rankLE; omega⟩

instance : IsTrans (String × CacheEntry) rankLE :=
  ⟨fun a b c h1 h2 => by unfold rankLE at *; omega⟩

instance : IsTotal (String × ℚ) simGE := ⟨fun a b => (le_total a.2 b.2).symm⟩

instance : IsTrans (String × ℚ) simGE := ⟨fun a b c h1 h2 => le_trans h2 h1⟩

/-- Concrete hash-primitive instantiation used for witnesses and
counterexamples: the structural properties at issue never depend on the
hash values, so simple executable stand-ins suffice. -/
def H0 : HashFns := ⟨fun s => s, fun s => s, fun s i => s.length + i⟩

def cC2a : SimilarityCache := cacheSet H0 (initCache 5 10 "strong") "hello world" "resp" none 0

def cC2b : SimilarityCache := (cleanupExpired 100 cC2a).1

def fpC2 : String := genQueryHash H0 "hello world" none

def cC3 : SimilarityCache := cacheSet H0 (initCache 5 10 "strong") "hello world" "resp" none 0

/-!
## Request coalescer (`RequestDeduplicator.deduplicate`)

The concurrency-relevant control flow of `deduplicate` for the two-task
scenario behind claim C1 (one primary caller running `query_func`, one
waiter attached to the same key), as a transition system over the await /
lock-acquisition points of the source:

* the waiter path executes `waiter = asyncio.Future(); pending.waiters.add(waiter)`
  and then `return await waiter` **inside** the `async with self._lock:`
  block — despite the comment "Release lock before waiting", the lock is
  held for the whole `await waiter`;
* the primary path runs `query_func` outside the lock, then enters
  `async with self._lock:` to `waiter.set_result(result)` for every waiter.

`waiterHoldsLock` models the waiter suspended at `await waiter` while
holding `self._lock`; `primaryDone` models `query_func` having returned;
`resultPublished`/`waiterResolved` model the primary's notification block
having run and set the waiter's future.  The timeout / cancellation exits
(`asyncio.timeout(30)`) are deliberately not steps: the claim is that the
waiter observes the computed result, and the theorem shows that without
the timeout firing no interleaving ever resolves the waiter. -/
structure DedupState where
  primaryDone : Bool
  resultPublished : Bool
  waiterHoldsLock : Bool
  waiterResolved : Bool
deriving DecidableEq

/-- Interleaving steps of the two coroutines (timeout excluded, see above).
`publish` requires the lock to be free, because the primary's notification
block opens with `async with self._lock:`; `waiterWake` requires the
waiter's future to be resolved, because only then does `await waiter`
return and the `async with` block release the lock. -/
inductive DedupStep : DedupState → DedupState → Prop
  | finishCompute (p l w : Bool) :
      DedupStep ⟨false, p, l, w⟩ ⟨true, p, l, w⟩
  | publish (s : DedupState) (hdone : s.primaryDone = true)
      (hfree : s.waiterHoldsLock = false) :
      DedupStep s ⟨s.primaryDone, true, s.waiterHoldsLock, true⟩
  | waiterWake (s : DedupState) (hres : s.waiterResolved = true) :
      DedupStep s ⟨s.primaryDone, s.resultPublished, false, s.waiterResolved⟩

/-- States reachable from the moment the waiter has attached and suspended
(`await waiter` inside the lock) while the primary is still computing. -/
inductive DedupReach : DedupState → Prop
  | init : DedupReach ⟨false, false, true, false⟩
  | step {s s' : DedupState} : DedupReach s → DedupStep s s' → DedupReach s'

/-- Per-band bucket-membership count of a fingerprint. -/
def bandCount (m : List (String × List String)) (fp : String) : Nat :=
  (m.map (fun b => if fp ∈ b.2 then 1 else 0)).sum

/-- The fold over bands performed by `_add_to_lsh`, abstracting the band →
bucket-key map. -/
def foldBands (key : Nat → String) (fp : String) (bs : List Nat) (B : LshBuckets) :
    LshBuckets :=
  bs.foldl (fun B' band => addToSlot B' band (key band) fp) B

/-- The signature `get`/`find_similar` computes for a query. -/
def querySig (H : HashFns) (L : MinHashLSH) (q : String) : List Nat :=
  computeMinhash H L.numPerm (getShingles q)

/-- The recomputed agreement fraction between a probe query and a stored
candidate query. -/
def candScore (H : HashFns) (L : MinHashLSH) (q cq : String) : ℚ :=
  (countMatches (querySig H L q) (querySig H L cq) : ℚ) / (L.numPerm : ℚ)

/-- A candidate acceptable to `get`'s similarity path: shortlisted by the
LSH lookup, still present in the query index with recomputed score `s`
meeting the threshold, still present in the cache, and domain-compatible
(matching tag or the generic tag). -/
def EligibleHit (H : HashFns) (c : SimilarityCache) (q d h : String) (s : ℚ)
    (e : CacheEntry) : Prop :=
  h ∈ getCandidates H c.lsh (querySig H c.lsh q) ∧
  (∃ cq, dlook c.queryIndex h = some cq ∧ s = candScore H c.lsh q cq) ∧
  c.lsh.threshold ≤ s ∧
  dlook c.cache h = some e ∧
  (e.gameType = d ∨ e.gameType = "generic")

/-! ## Association-list lemmas -/

theorem dlook_insertReplace_self {α β : Type} [DecidableEq α] (l : List (α × β)) (k : α) (v : β) :
    dlook (insertReplace l k v) k = some v := by
  induction l with
  | nil => simp [insertReplace, dlook]
  | cons kv rest ih =>
    by_cases h : k = kv.1
    · simp [insertReplace, h, dlook]
    · simp [insertReplace, h, dlook, ih]

theorem dlook_insertReplace_ne {α β : Type} [DecidableEq α] (l : List (α × β)) {a k : α} (v : β)
    (h : a ≠ k) : dlook (insertReplace l k v) a = dlook l a := by
  induction l with
  | nil => simp [insertReplace, dlook, h]
  | cons kv rest ih =>
    by_cases hk : k = kv.1
    · subst hk
      simp [insertReplace, dlook, h]
    · by_cases ha : a = kv.1
      · simp [insertReplace, hk, dlook, ha]
      · simp [insertReplace, hk, dlook, ha, ih]

theorem dlook_eraseKey_ne {α β : Type} [DecidableEq α] (l : List (α × β)) {a k : α}
    (h : a ≠ k) : dlook (eraseKey l k) a = dlook l a := by
  induction l with
  | nil => simp [eraseKey]
  | cons kv rest ih =>
    by_cases hk : k = kv.1
    · subst hk
      simp [eraseKey, dlook, h]
    · by_cases ha : a = kv.1
      · simp [eraseKey, hk, dlook, ha]
      · simp [eraseKey, hk, dlook, ha, ih]

theorem dlook_none_iff {α β : Type} [DecidableEq α] (l : List (α × β)) (a : α) :
    dlook l a = none ↔ a ∉ keysOf l := by
  induction l with
  | nil => simp [dlook, keysOf]
  | cons kv rest ih =>
    by_cases h : a = kv.1
    · simp [dlook, h, keysOf]
    · simp [dlook, h, keysOf, ih]

theorem dlook_isSome_iff {α β : Type} [DecidableEq α] (l : List (α × β)) (a : α) :
    (dlook l a).isSome = true ↔ a ∈ keysOf l := by
  rcases h : dlook l a with _ | v
  · rw [dlook_none_iff] at h
    simp [h]
  · have : a ∈ keysOf l := by
      by_contra hc
      rw [← dlook_none_iff] at hc
      rw [h] at hc
      exact Option.noConfusion hc
    simp [this]

theorem dlook_eq_some_mem {α β : Type} [DecidableEq α] {l : List (α × β)} {a : α} {v : β}
    (h : dlook l a = some v) : (a, v) ∈ l := by
  induction l with
  | nil => simp [dlook] at h
  | cons kv rest ih =>
    by_cases hk : a = kv.1
    · rw [dlook, if_pos hk] at h
      have : kv = (a, v) := by
        rcases kv with ⟨k1, v1⟩
        simp at h hk
        simp [hk, h]
      rw [this]
      exact List.mem_cons_self _ _
    · rw [dlook, if_neg hk] at h
      exact List.mem_cons_of_mem _ (ih h)

theorem dlook_of_mem_nodup {α β : Type} [DecidableEq α] {l : List (α × β)} {a : α} {v : β}
    (hn : NodupKeys l) (h : (a, v) ∈ l) : dlook l a = some v := by
  induction l with
  | nil => simp at h
  | cons kv rest ih =>
    have hn' : NodupKeys rest := (List.nodup_cons.mp hn).2
    rcases List.mem_cons.mp h with h1 | h1
    · rw [← h1]
      simp [dlook]
    · have hne : a ≠ kv.1 := by
        intro he
        have : kv.1 ∈ keysOf rest := by
          rw [← he]
          exact List.mem_map.mpr ⟨(a, v), h1, rfl⟩
        exact (List.nodup_cons.mp hn).1 this
      rw [dlook, if_neg hne]
      exact ih hn' h1

theorem keysOf_insertReplace {α β : Type} [DecidableEq α] (l : List (α × β)) (k : α) (v : β) :
    keysOf (insertReplace l k v) = if k ∈ keysOf l then keysOf l else keysOf l ++ [k] := by
  induction l with
  | nil => simp [insertReplace, keysOf]
  | cons kv rest ih =>
    by_cases h : k = kv.1
    · simp [insertReplace, h, keysOf]
    · have h' : (k ∈ keysOf (kv :: rest)) ↔ (k ∈ keysOf rest) := by
        simp [keysOf, h]
      by_cases hm : k ∈ keysOf rest
      · rw [if_pos (h'.mpr hm)]
        rw [if_pos hm] at ih
        simp only [insertReplace, if_neg h, keysOf, List.map_cons] at ih ⊢
        rw [ih]
      · rw [if_neg (fun hc => hm (h'.mp hc))]
        rw [if_neg hm] at ih
        simp only [insertReplace, if_neg h, keysOf, List.map_cons] at ih ⊢
        rw [ih]
        rfl

theorem nodupKeys_insertReplace {α β : Type} [DecidableEq α] {l : List (α × β)} (k : α) (v : β)
    (hn : NodupKeys l) : NodupKeys (insertReplace l k v) := by
  unfold NodupKeys at *
  rw [keysOf_insertReplace]
  by_cases h : k ∈ keysOf l
  · simpa [h] using hn
  · simp only [h, if_false]
    rw [List.nodup_append]
    exact ⟨hn, List.nodup_singleton _, by simpa using fun hx => h hx⟩

theorem keysOf_eraseKey_sublist {α β : Type} [DecidableEq α] (l : List (α × β)) (k : α) :
    List.Sublist (keysOf (eraseKey l k)) (keysOf l) := by
  induction l with
  | nil => simp [eraseKey]
  | cons kv rest ih =>
    by_cases h : k = kv.1
    · simp only [eraseKey, if_pos h]
      exact List.sublist_cons_of_sublist _ (List.Sublist.refl _)
    · simp only [eraseKey, if_neg h, keysOf, List.map_cons]
      exact List.Sublist.cons₂ _ ih

theorem nodupKeys_eraseKey {α β : Type} [DecidableEq α] {l : List (α × β)} (k : α)
    (hn : NodupKeys l) : NodupKeys (eraseKey l k) :=
  List.Nodup.sublist (keysOf_eraseKey_sublist l k) hn

theorem dlook_eraseKey_self {α β : Type} [DecidableEq α] {l : List (α × β)} (k : α)
    (hn : NodupKeys l) : dlook (eraseKey l k) k = none := by
  induction l with
  | nil => simp [eraseKey, dlook]
  | cons kv rest ih =>
    have hn' : NodupKeys rest := (List.nodup_cons.mp hn).2
    by_cases h : k = kv.1
    · simp only [eraseKey, if_pos h]
      rw [dlook_none_iff, h]
      exact (List.nodup_cons.mp hn).1
    · simp only [eraseKey, if_neg h, dlook, if_neg h]
      exact ih hn'

theorem dlook_eraseKey_none {α β : Type} [DecidableEq α] {l : List (α × β)} {a : α} (k : α)
    (h : dlook l a = none) : dlook (eraseKey l k) a = none := by
  by_cases hk : a = k
  · subst hk
    rw [dlook_none_iff] at h ⊢
    intro hc
    exact h (List.Sublist.mem hc (keysOf_eraseKey_sublist l a))
  · rwa [dlook_eraseKey_ne _ hk]

theorem dlook_foldl_eraseKey {α β : Type} [DecidableEq α] (ks : List α) (l : List (α × β))
    (a : α) (hn : NodupKeys l) :
    dlook (ks.foldl (fun d k => eraseKey d k) l) a =
      if a ∈ ks then none else dlook l a := by
  induction ks generalizing l with
  | nil => simp
  | cons k ks ih =>
    simp only [List.foldl_cons]
    rw [ih _ (nodupKeys_eraseKey k hn)]
    by_cases hm : a ∈ ks
    · simp [hm]
    · by_cases hk : a = k
      · subst hk
        simp [hm, dlook_eraseKey_self _ hn]
      · simp [hm, hk, dlook_eraseKey_ne _ hk]

theorem nodupKeys_foldl_eraseKey {α β : Type} [DecidableEq α] (ks : List α) (l : List (α × β))
    (hn : NodupKeys l) : NodupKeys (ks.foldl (fun d k => eraseKey d k) l) := by
  induction ks generalizing l with
  | nil => exact hn
  | cons k ks ih =>
    simp only [List.foldl_cons]
    exact ih _ (nodupKeys_eraseKey k hn)

theorem mem_foldl_eraseKey {α β : Type} [DecidableEq α] (ks : List α) (l : List (α × β))
    (kv : α × β) (hn : NodupKeys l) :
    kv ∈ ks.foldl (fun d k => eraseKey d k) l ↔ kv ∈ l ∧ kv.1 ∉ ks := by
  constructor
  · intro h
    have hd : dlook (ks.foldl (fun d k => eraseKey d k) l) kv.1 = some kv.2 :=
      dlook_of_mem_nodup (nodupKeys_foldl_eraseKey ks l hn) (by simpa using h)
    rw [dlook_foldl_eraseKey ks l kv.1 hn] at hd
    by_cases hm : kv.1 ∈ ks
    · rw [if_pos hm] at hd
      exact Option.noConfusion hd
    · rw [if_neg hm] at hd
      exact ⟨by simpa using dlook_eq_some_mem hd, hm⟩
  · rintro ⟨hmem, hnot⟩
    have hd : dlook l kv.1 = some kv.2 := dlook_of_mem_nodup hn (by simpa using hmem)
    have : dlook (ks.foldl (fun d k => eraseKey d k) l) kv.1 = some kv.2 := by
      rw [dlook_foldl_eraseKey ks l kv.1 hn, if_neg hnot]
      exact hd
    simpa using dlook_eq_some_mem this

theorem length_foldl_eraseKey {α β : Type} [DecidableEq α] (ks : List α) (l : List (α × β))
    (hn : NodupKeys l) (hks : ks.Nodup) (hsub : ∀ k ∈ ks, k ∈ keysOf l) :
    (ks.foldl (fun d k => eraseKey d k) l).length = l.length - ks.length := by
  induction ks generalizing l with
  | nil => simp
  | cons k ks ih =>
    simp only [List.foldl_cons]
    have hkl : k ∈ keysOf l := hsub k (List.mem_cons_self _ _)
    have hlen : (eraseKey l k).length = l.length - 1 := by
      clear ih hsub hks
      induction l with
      | nil => simp [keysOf] at hkl
      | cons kv rest ih' =>
        by_cases h : k = kv.1
        · simp [eraseKey, h]
        · have : k ∈ keysOf rest := by
            rcases List.mem_cons.mp hkl with h1 | h1
            · exact absurd h1 h
            · exact h1
          have hrest : rest.length ≥ 1 := by
            rcases rest with _ | ⟨x, xs⟩
            · simp [keysOf] at this
            · simp
          simp only [eraseKey, if_neg h, List.length_cons]
          rw [ih' ((List.nodup_cons.mp hn).2) this]
          omega
    rw [ih _ (nodupKeys_eraseKey k hn) hks.of_cons ?_, hlen]
    · have : l.length ≥ 1 := by
        rcases l with _ | ⟨x, xs⟩
        · simp [keysOf] at hkl
        · simp
      simp only [List.length_cons]
      omega
    · intro k' hk'
      have hk'l : k' ∈ keysOf l := hsub k' (List.mem_cons_of_mem _ hk')
      have hne : k' ≠ k := fun he => (List.nodup_cons.mp hks).1 (he ▸ hk')
      rcases hd : dlook l k' with _ | w
      · rw [dlook_none_iff] at hd
        exact absurd hk'l hd
      · have : dlook (eraseKey l k) k' = some w := by
          rw [dlook_eraseKey_ne _ hne]
          exact hd
        rw [← dlook_isSome_iff, this]
        rfl

/-! ## Cleanup and eviction lemmas -/

theorem cleanup_lsh (now : Int) (c : SimilarityCache) :
    ((cleanupExpired now c).1).lsh = c.lsh := rfl

theorem cleanup_fields (now : Int) (c : SimilarityCache) :
    ((cleanupExpired now c).1).ttlSeconds = c.ttlSeconds ∧
    ((cleanupExpired now c).1).maxSize = c.maxSize ∧
    ((cleanupExpired now c).1).stats = c.stats := ⟨rfl, rfl, rfl⟩

theorem cleanup_cache_eq (now : Int) (c : SimilarityCache) :
    ((cleanupExpired now c).1).cache =
      (keysOf (c.cache.filter (fun kv => c.ttlSeconds < now - kv.2.timestamp))).foldl
        (fun d k => eraseKey d k) c.cache := rfl

theorem cleanup_queryIndex_eq (now : Int) (c : SimilarityCache) :
    ((cleanupExpired now c).1).queryIndex =
      (keysOf (c.cache.filter (fun kv => c.ttlSeconds < now - kv.2.timestamp))).foldl
        (fun d k => eraseKey d k) c.queryIndex := rfl

theorem cleanup_nodup_cache (now : Int) (c : SimilarityCache) (hn : NodupKeys c.cache) :
    NodupKeys ((cleanupExpired now c).1).cache :=
  nodupKeys_foldl_eraseKey _ _ hn

theorem cleanup_dlook_fresh (now : Int) (c : SimilarityCache) {k : String} {e : CacheEntry}
    (hn : NodupKeys c.cache) (hk : dlook c.cache k = some e)
    (hfresh : now - e.timestamp ≤ c.ttlSeconds) :
    dlook ((cleanupExpired now c).1).cache k = some e := by
  rw [cleanup_cache_eq, dlook_foldl_eraseKey _ _ _ hn]
  rw [if_neg, hk]
  intro hmem
  rcases List.mem_map.mp hmem with ⟨kv, hkv, hfst⟩
  rcases List.mem_filter.mp hkv with ⟨hmem', hpred⟩
  have : dlook c.cache kv.1 = some kv.2 := dlook_of_mem_nodup hn (by simpa using hmem')
  rw [hfst, hk] at this
  have he : kv.2 = e := by
    injection this with h
    exact h.symm
  rw [he] at hpred
  simp only [decide_eq_true_eq] at hpred
  omega

theorem cleanup_dlook_expired (now : Int) (c : SimilarityCache) {k : String} {e : CacheEntry}
    (hn : NodupKeys c.cache) (hk : dlook c.cache k = some e)
    (hexp : c.ttlSeconds < now - e.timestamp) :
    dlook ((cleanupExpired now c).1).cache k = none ∧
    (NodupKeys c.queryIndex → dlook ((cleanupExpired now c).1).queryIndex k = none) := by
  have hmem : k ∈ keysOf (c.cache.filter (fun kv => c.ttlSeconds < now - kv.2.timestamp)) := by
    refine List.mem_map.mpr ⟨(k, e), List.mem_filter.mpr ⟨dlook_eq_some_mem hk, ?_⟩, rfl⟩
    simpa using hexp
  constructor
  · rw [cleanup_cache_eq, dlook_foldl_eraseKey _ _ _ hn, if_pos hmem]
  · intro hq
    rw [cleanup_queryIndex_eq, dlook_foldl_eraseKey _ _ _ hq, if_pos hmem]

theorem cleanup_id_of_fresh (now : Int) (c : SimilarityCache)
    (h : ∀ kv ∈ c.cache, now - kv.2.timestamp ≤ c.ttlSeconds) :
    (cleanupExpired now c).1 = c := by
  have hfil : c.cache.filter (fun kv => c.ttlSeconds < now - kv.2.timestamp) = [] := by
    rw [List.filter_eq_nil_iff]
    intro kv hkv
    simpa using h kv hkv
  show (⟨c.ttlSeconds, c.maxSize, c.thresholdName, c.thresholdValue, _, _, c.lsh, c.stats⟩ :
    SimilarityCache) = c
  rw [hfil]
  rfl

theorem sorted_take_drop {α : Type} {r : α → α → Prop} {l : List α} (hs : List.Sorted r l)
    (n : Nat) {x y : α} (hx : x ∈ l.take n) (hy : y ∈ l.drop n) : r x y := by
  have := List.take_append_drop n l
  rw [← this] at hs
  exact (List.pairwise_append.mp hs).2.2 x hx y hy

/-! ## evictLru lemmas -/

theorem evict_id_small (c : SimilarityCache) (h : c.cache.length < c.maxSize) :
    evictLru c = (c, 0) := by
  unfold evictLru
  rw [if_pos h]

theorem evict_fold_split (ks : List String) (d : List (String × CacheEntry))
    (qi : List (String × String)) (n : Nat) :
    (ks.foldl (fun acc k =>
        ((eraseKey acc.1 k : List (String × CacheEntry)),
         (eraseKey acc.2.1 k : List (String × String)),
         acc.2.2 + (if (dlook acc.1 k).isSome then 1 else 0))) (d, qi, n)).1 =
      ks.foldl (fun d k => eraseKey d k) d ∧
    (ks.foldl (fun acc k =>
        ((eraseKey acc.1 k : List (String × CacheEntry)),
         (eraseKey acc.2.1 k : List (String × String)),
         acc.2.2 + (if (dlook acc.1 k).isSome then 1 else 0))) (d, qi, n)).2.1 =
      ks.foldl (fun d k => eraseKey d k) qi := by
  induction ks generalizing d qi n with
  | nil => exact ⟨rfl, rfl⟩
  | cons k ks ih =>
    simp only [List.foldl_cons]
    exact ih _ _ _

theorem evict_lsh (c : SimilarityCache) : ((evictLru c).1).lsh = c.lsh := by
  unfold evictLru
  by_cases h : c.cache.length < c.maxSize
  · rw [if_pos h]
  · rw [if_neg h]

theorem evict_fields (c : SimilarityCache) :
    ((evictLru c).1).ttlSeconds = c.ttlSeconds ∧ ((evictLru c).1).maxSize = c.maxSize ∧
    ((evictLru c).1).thresholdName = c.thresholdName ∧
    ((evictLru c).1).thresholdValue = c.thresholdValue := by
  unfold evictLru
  by_cases h : c.cache.length < c.maxSize
  · rw [if_pos h]
    exact ⟨rfl, rfl, rfl, rfl⟩
  · rw [if_neg h]
    exact ⟨rfl, rfl, rfl, rfl⟩

theorem evict_cache_eq (c : SimilarityCache) (h : ¬ c.cache.length < c.maxSize) :
    ((evictLru c).1).cache =
      (keysOf ((List.insertionSort rankLE c.cache).take
          (max 1 ((List.insertionSort rankLE c.cache).length / 5)))).foldl
        (fun d k => eraseKey d k) c.cache ∧
    ((evictLru c).1).queryIndex =
      (keysOf ((List.insertionSort rankLE c.cache).take
          (max 1 ((List.insertionSort rankLE c.cache).length / 5)))).foldl
        (fun d k => eraseKey d k) c.queryIndex := by
  unfold evictLru
  rw [if_neg h]
  exact evict_fold_split _ _ _ _

/-! ## cacheSet lemmas -/

theorem cacheSet_cache (H : HashFns) (c : SimilarityCache) (q r : String) (gt : Option String)
    (now : Int) :
    (cacheSet H c q r gt now).cache =
      insertReplace ((evictLru c).1).cache (genQueryHash H q gt)
        ⟨r, now, genQueryHash H q gt, orGeneric gt, 0⟩ := rfl

theorem cacheSet_queryIndex (H : HashFns) (c : SimilarityCache) (q r : String)
    (gt : Option String) (now : Int) :
    (cacheSet H c q r gt now).queryIndex =
      insertReplace ((evictLru c).1).queryIndex (genQueryHash H q gt) q := rfl

theorem cacheSet_lsh (H : HashFns) (c : SimilarityCache) (q r : String) (gt : Option String)
    (now : Int) :
    (cacheSet H c q r gt now).lsh = addQuery H c.lsh q (genQueryHash H q gt) := by
  show addQuery H ((evictLru c).1).lsh q _ = _
  rw [evict_lsh]

theorem cacheSet_fields (H : HashFns) (c : SimilarityCache) (q r : String) (gt : Option String)
    (now : Int) :
    (cacheSet H c q r gt now).ttlSeconds = c.ttlSeconds ∧
    (cacheSet H c q r gt now).maxSize = c.maxSize := by
  refine ⟨?_, ?_⟩
  · show ((evictLru c).1).ttlSeconds = c.ttlSeconds
    exact (evict_fields c).1
  · show ((evictLru c).1).maxSize = c.maxSize
    exact (evict_fields c).2.1

theorem nodup_evict (c : SimilarityCache) (hn : NodupKeys c.cache) :
    NodupKeys ((evictLru c).1).cache := by
  by_cases h : c.cache.length < c.maxSize
  · rw [evict_id_small c h]
    exact hn
  · rw [(evict_cache_eq c h).1]
    exact nodupKeys_foldl_eraseKey _ _ hn

theorem nodup_cacheSet (H : HashFns) (c : SimilarityCache) (q r : String) (gt : Option String)
    (now : Int) (hn : NodupKeys c.cache) : NodupKeys (cacheSet H c q r gt now).cache := by
  rw [cacheSet_cache]
  exact nodupKeys_insertReplace _ _ (nodup_evict c hn)

/-- Claim C4 helper: the entry just written by `set`. -/
theorem cacheSet_dlook_self (H : HashFns) (c : SimilarityCache) (q r : String)
    (gt : Option String) (now : Int) :
    dlook (cacheSet H c q r gt now).cache (genQueryHash H q gt) =
      some ⟨r, now, genQueryHash H q gt, orGeneric gt, 0⟩ := by
  rw [cacheSet_cache]
  exact dlook_insertReplace_self _ _ _

/-- Exact-match fast path of `get`: a fresh entry under the exact
fingerprint is returned unannotated with its hit counter incremented. -/
theorem cacheGet_exact_hit (H : HashFns) (c : SimilarityCache) (q : String)
    (gt : Option String) (now : Int) (e : CacheEntry) (hn : NodupKeys c.cache)
    (hk : dlook c.cache (genQueryHash H q gt) = some e)
    (hfresh : now - e.timestamp ≤ c.ttlSeconds) :
    (cacheGet H c q gt now).1 = some e.response ∧
    dlook ((cacheGet H c q gt now).2).cache (genQueryHash H q gt) =
      some { e with hitCount := e.hitCount + 1 } ∧
    ((cacheGet H c q gt now).2).stats.hits = c.stats.hits + 1 := by
  have hb : dlook ((cleanupExpired now
      { c with stats := { c.stats with totalQueries := c.stats.totalQueries + 1 } }).1).cache
      (genQueryHash H q gt) = some e :=
    cleanup_dlook_fresh now _ hn hk hfresh
  have hnc : NodupKeys ((cleanupExpired now
      { c with stats := { c.stats with totalQueries := c.stats.totalQueries + 1 } }).1).cache :=
    cleanup_nodup_cache now _ hn
  simp only [cacheGet]
  rw [hb]
  exact ⟨rfl, by rw [dlook_insertReplace_self], rfl⟩

/-- Claim C4: `set(q, r, d)` followed immediately by `get(q, d)` (same
time, nonnegative TTL) returns exactly `r` — the exact-match path, with no
match-percentage annotation — and leaves the entry's hit counter
incremented from 0 to 1. -/
theorem c4_exact_roundtrip (H : HashFns) (c : SimilarityCache) (q r : String)
    (gt : Option String) (now : Int) (hn : NodupKeys c.cache) (httl : 0 ≤ c.ttlSeconds) :
    (cacheGet H (cacheSet H c q r gt now) q gt now).1 = some r ∧
    dlook ((cacheGet H (cacheSet H c q r gt now) q gt now).2).cache (genQueryHash H q gt) =
      some ⟨r, now, genQueryHash H q gt, orGeneric gt, 1⟩ := by
  have hfresh : now - (⟨r, now, genQueryHash H q gt, orGeneric gt, 0⟩ : CacheEntry).timestamp ≤
      (cacheSet H c q r gt now).ttlSeconds := by
    rw [(cacheSet_fields H c q r gt now).1]
    simpa using httl
  have h := cacheGet_exact_hit H (cacheSet H c q r gt now) q gt now
    ⟨r, now, genQueryHash H q gt, orGeneric gt, 0⟩
    (nodup_cacheSet H c q r gt now hn) (cacheSet_dlook_self H c q r gt now) hfresh
  exact ⟨h.1, h.2.1⟩

/-- Witness for C4 at a concrete instance. -/
theorem c4_witness :
    (cacheGet H0 (cacheSet H0 (initCache 5 10 "strong") "hello world" "resp" none 0)
        "hello world" none 0).1 = some "resp" :=
  (c4_exact_roundtrip H0 (initCache 5 10 "strong") "hello world" "resp" none 0
    (List.nodup_nil) (by decide)).1

/-! ## simLoop lemmas -/

theorem simLoop_queryIndex (gt : Option String) (l : List (String × ℚ)) (c : SimilarityCache) :
    ((simLoop gt l c).2).queryIndex = c.queryIndex := by
  induction l generalizing c with
  | nil => rfl
  | cons p rest ih =>
    rcases p with ⟨h, s⟩
    rcases hd : dlook c.cache h with _ | e
    · simp only [simLoop, hd]
      exact ih c
    · by_cases hc : compatible gt e = true
      · simp only [simLoop, hd, hc, if_true]
      · simp only [simLoop, hd, hc, if_false]
        exact ih c

theorem simLoop_cache_none (gt : Option String) (l : List (String × ℚ)) (c : SimilarityCache)
    {a : String} (ha : dlook c.cache a = none) :
    dlook ((simLoop gt l c).2).cache a = none := by
  induction l generalizing c with
  | nil => exact ha
  | cons p rest ih =>
    rcases p with ⟨h, s⟩
    rcases hd : dlook c.cache h with _ | e
    · simp only [simLoop, hd]
      exact ih c ha
    · by_cases hc : compatible gt e = true
      · have hne : a ≠ h := by
          intro he
          rw [he, hd] at ha
          exact Option.noConfusion ha
        simp only [simLoop, hd, hc, if_true]
        rw [dlook_insertReplace_ne _ _ hne]
        exact ha
      · simp only [simLoop, hd, hc, if_false]
        exact ih c ha

theorem simLoop_fst_none_iff (gt : Option String) (l : List (String × ℚ))
    (c : SimilarityCache) :
    (simLoop gt l c).1 = none ↔
      ∀ p ∈ l, ∀ e, dlook c.cache p.1 = some e → compatible gt e = false := by
  induction l generalizing c with
  | nil => simp [simLoop]
  | cons p rest ih =>
    rcases p with ⟨h, s⟩
    rcases hd : dlook c.cache h with _ | e
    · simp only [simLoop, hd, ih c]
      constructor
      · intro hall p' hp' e' he'
        rcases List.mem_cons.mp hp' with h1 | h1
        · rw [h1] at he'
          simp only at he'
          rw [hd] at he'
          exact Option.noConfusion he'
        · exact hall p' h1 e' he'
      · intro hall p' hp' e' he'
        exact hall p' (List.mem_cons_of_mem _ hp') e' he'
    · by_cases hc : compatible gt e = true
      · simp only [simLoop, hd, hc, if_true]
        constructor
        · intro hcon
          exact Option.noConfusion hcon
        · intro hall
          have := hall (h, s) (List.mem_cons_self _ _) e hd
          rw [hc] at this
          exact Bool.noConfusion this
      · simp only [simLoop, hd]
        rw [if_neg hc, ih c]
        constructor
        · intro hall p' hp' e' he'
          rcases List.mem_cons.mp hp' with h1 | h1
          · rw [h1] at he'
            simp only at he'
            rw [hd] at he'
            have he2 : e = e' := by injection he'
            rw [← he2]
            simpa using hc
          · exact hall p' h1 e' he'
        · intro hall p' hp' e' he'
          exact hall p' (List.mem_cons_of_mem _ hp') e' he'

/-- When the whole store is the single expired entry, cleanup empties it. -/
theorem cleanup_single_expired (now : Int) (c : SimilarityCache) (k : String) (e : CacheEntry)
    (hsingle : c.cache = [(k, e)]) (hexp : c.ttlSeconds < now - e.timestamp) :
    ((cleanupExpired now c).1).cache = [] := by
  rw [cleanup_cache_eq, hsingle]
  have hp : decide (c.ttlSeconds < now - (k, e).2.timestamp) = true := decide_eq_true hexp
  simp only [List.filter, hp, keysOf, List.map, List.foldl, eraseKey, if_pos rfl]
  simp

/-- Claim C6, amended: the expiry comparison is strict (`>` in
`_cleanup_expired`), so an entry whose age equals the TTL exactly is still
a hit; removal and miss happen for age strictly greater than the TTL. -/
theorem c6_ttl_behaviour (H : HashFns) (c : SimilarityCache) (q : String) (gt : Option String)
    (now : Int) (e : CacheEntry) (hn : NodupKeys c.cache) (hq : NodupKeys c.queryIndex)
    (hk : dlook c.cache (genQueryHash H q gt) = some e) :
    (now - e.timestamp ≤ c.ttlSeconds →
      (cacheGet H c q gt now).1 = some e.response ∧
      dlook ((cacheGet H c q gt now).2).cache (genQueryHash H q gt) =
        some { e with hitCount := e.hitCount + 1 }) ∧
    (c.ttlSeconds < now - e.timestamp →
      dlook ((cacheGet H c q gt now).2).cache (genQueryHash H q gt) = none ∧
      dlook ((cacheGet H c q gt now).2).queryIndex (genQueryHash H q gt) = none ∧
      (c.cache = [(genQueryHash H q gt, e)] → (cacheGet H c q gt now).1 = none)) := by
  constructor
  · intro hfresh
    have h := cacheGet_exact_hit H c q gt now e hn hk hfresh
    exact ⟨h.1, h.2.1⟩
  · intro hexp
    have hbump : ({ c with stats :=
        { c.stats with totalQueries := c.stats.totalQueries + 1 } } : SimilarityCache).cache =
        c.cache := rfl
    have hcl := cleanup_dlook_expired now
      { c with stats := { c.stats with totalQueries := c.stats.totalQueries + 1 } }
      (k := genQueryHash H q gt) (e := e) hn hk hexp
    simp only [cacheGet]
    rw [hcl.1]
    refine ⟨?_, ?_, ?_⟩
    · exact simLoop_cache_none _ _ _ hcl.1
    · rw [simLoop_queryIndex]
      exact hcl.2 hq
    · intro hsingle
      have hempty : ((cleanupExpired now { c with stats :=
          { c.stats with totalQueries := c.stats.totalQueries + 1 } }).1).cache = [] :=
        cleanup_single_expired now _ _ e hsingle hexp
      rw [simLoop_fst_none_iff]
      intro p hp e' he'
      rw [hempty] at he'
      exact Option.noConfusion he'

/-- Counterexample to C6 as stated: with `ttl = 5`, an entry inserted at
time 0 and queried at time 5 has age exactly `ttl` ("not less than ttl"),
so the claim requires removal and a miss; the code's strict `>` keeps it
and returns a hit. -/
theorem c6_counterexample :
    (cacheGet H0 (cacheSet H0 (initCache 5 10 "strong") "hello world" "resp" none 0)
        "hello world" none 5).1 = some "resp" ∧
    dlook ((cacheGet H0 (cacheSet H0 (initCache 5 10 "strong") "hello world" "resp" none 0)
        "hello world" none 5).2).cache (genQueryHash H0 "hello world" none) =
      some ⟨"resp", 0, genQueryHash H0 "hello world" none, "generic", 1⟩ := by
  constructor
  · decide
  · decide

/-- Witness for the amended C6 at a concrete instance (both branches). -/
theorem c6_witness :
    (cacheGet H0 (cacheSet H0 (initCache 5 10 "strong") "hi there" "r2" none 0)
        "hi there" none 6).1 = none := by
  have h := c6_ttl_behaviour H0
    (cacheSet H0 (initCache 5 10 "strong") "hi there" "r2" none 0) "hi there" none 6
    ⟨"r2", 0, genQueryHash H0 "hi there" none, "generic", 0⟩
    (by decide) (by decide) (by decide)
  exact (h.2 (by decide)).2.2 (by decide)

/-- Every candidate returned by `find_similar` carries a fingerprint still
present in the supplied query index (the `candidate_hash in stored_queries`
filter), so fingerprints left behind in LSH buckets are never returned. -/
theorem findSimilar_subset_index (H : HashFns) (L : MinHashLSH) (q : String)
    (sq : List (String × String)) : ∀ p ∈ findSimilar H L q sq, p.1 ∈ keysOf sq := by
  intro p hp
  unfold findSimilar at hp
  rw [List.mem_insertionSort] at hp
  rcases List.mem_filterMap.mp hp with ⟨h, _, hf⟩
  rcases hd : dlook sq h with _ | cq
  · rw [hd] at hf
    exact Option.noConfusion hf
  · rw [hd] at hf
    simp only at hf
    split at hf
    · have : p.1 = h := by
        injection hf with hf'
        rw [← hf']
      rw [this, ← dlook_isSome_iff, hd]
      rfl
    · exact Option.noConfusion hf

/-- Counterexample to C2 as stated: after the TTL-triggered removal of the
only entry (inserted at time 0, cleaned up at time 100 with ttl 5), its
fingerprint is gone from the Cache Store and the QueryIndex but still sits
in all 16 Similarity Index buckets — the claim requires it to be absent
from every bucket. -/
theorem c2_counterexample :
    (dlook cC2a.cache fpC2).isSome = true ∧
    dlook cC2b.cache fpC2 = none ∧
    dlook cC2b.queryIndex fpC2 = none ∧
    countFp cC2b.lsh.buckets fpC2 = 16 := by
  refine ⟨by decide, by decide, by decide, by decide⟩

/-- Claim C2, amended: removal (TTL expiry or capacity eviction) deletes
the fingerprint from the Cache Store and the QueryIndex but leaves the
Similarity Index untouched; the stale bucket entries are harmless because
`find_similar` only returns fingerprints still present in the QueryIndex. -/
theorem c2_removal_scope (H : HashFns) (c : SimilarityCache) (now : Int) (k : String)
    (e : CacheEntry) (hn : NodupKeys c.cache) (hq : NodupKeys c.queryIndex) :
    (dlook c.cache k = some e → c.ttlSeconds < now - e.timestamp →
      dlook ((cleanupExpired now c).1).cache k = none ∧
      dlook ((cleanupExpired now c).1).queryIndex k = none ∧
      ((cleanupExpired now c).1).lsh = c.lsh) ∧
    (k ∈ keysOf c.cache → k ∉ keysOf ((evictLru c).1).cache →
      dlook ((evictLru c).1).queryIndex k = none ∧ ((evictLru c).1).lsh = c.lsh) ∧
    (∀ L q, ∀ p ∈ findSimilar H L q c.queryIndex, p.1 ∈ keysOf c.queryIndex) := by
  refine ⟨?_, ?_, fun L q => findSimilar_subset_index H L q c.queryIndex⟩
  · intro hk hexp
    have h := cleanup_dlook_expired now c hn hk hexp
    exact ⟨h.1, h.2 hq, cleanup_lsh now c⟩
  · intro hmem hgone
    by_cases hsmall : c.cache.length < c.maxSize
    · rw [evict_id_small c hsmall] at hgone
      exact absurd hmem hgone
    · have hksome : (dlook c.cache k).isSome = true := (dlook_isSome_iff _ _).mpr hmem
      have hcache := (evict_cache_eq c hsmall).1
      have hqidx := (evict_cache_eq c hsmall).2
      have hnone : dlook ((evictLru c).1).cache k = none := by
        rw [dlook_none_iff]
        exact hgone
      rw [hcache, dlook_foldl_eraseKey _ _ _ hn] at hnone
      by_cases hin : k ∈ keysOf ((List.insertionSort rankLE c.cache).take
          (max 1 ((List.insertionSort rankLE c.cache).length / 5)))
      · refine ⟨?_, evict_lsh c⟩
        rw [hqidx, dlook_foldl_eraseKey _ _ _ hq, if_pos hin]
      · rw [if_neg hin] at hnone
        rw [hnone] at hksome
        exact Bool.noConfusion hksome

/-- Witness for the amended C2 at a concrete instance. -/
theorem c2_witness :
    dlook (( cleanupExpired 100 cC2a).1).cache fpC2 = none ∧
    ((cleanupExpired 100 cC2a).1).lsh = cC2a.lsh := by
  have h := (c2_removal_scope H0 cC2a 100 fpC2
    ⟨"resp", 0, fpC2, "generic", 0⟩ (by decide) (by decide)).1 (by decide) (by decide)
  exact ⟨h.1, h.2.2⟩

/-- Counterexample to C3 as stated: `set_threshold("bogus")` does not fail
with an invalid-argument error — the source's membership check has no
`else` branch, so the call completes normally (`.ok`, no exception) and
merely leaves the state unchanged. -/
theorem c3_counterexample : setThreshold H0 "bogus" cC3 = Except.ok cC3 := rfl

/-- Claim C3, amended: for a tier name outside exact/strong/broad/loose,
`set_threshold` is silently ignored — it raises no error and mutates no
state (the result is `.ok` with the cache unchanged). -/
theorem c3_unknown_tier_ignored (H : HashFns) (t : String) (c : SimilarityCache)
    (h : t ∉ keysOf THRESHOLDS) : setThreshold H t c = Except.ok c := by
  unfold setThreshold
  rw [if_neg]
  intro hs
  rw [dlook_isSome_iff] at hs
  exact h hs

/-- Witness for the amended C3 at a concrete instance. -/
theorem c3_witness : setThreshold H0 "strongg" cC3 = Except.ok cC3 :=
  c3_unknown_tier_ignored H0 "strongg" cC3 (by decide)

/-- Claim C10: the hit-rate denominator `max(1, total_queries)` is always
positive, so the division is defined in every state; with no queries yet
(and hence no hits) the reported hit rate is exactly 0, and once at least
one query was made the rate is `hits / total_queries * 100`. -/
theorem c10_hit_rate (c : SimilarityCache) (now : Int) :
    (0 : ℚ) < ((max 1 c.stats.totalQueries : Nat) : ℚ) ∧
    (c.stats.totalQueries = 0 → c.stats.hits = 0 → (getStats c now).hitRate = 0) ∧
    (1 ≤ c.stats.totalQueries →
      (getStats c now).hitRate = (c.stats.hits : ℚ) / (c.stats.totalQueries : ℚ) * 100) := by
  refine ⟨?_, ?_, ?_⟩
  · have : 1 ≤ max 1 c.stats.totalQueries := le_max_left _ _
    exact_mod_cast Nat.lt_of_lt_of_le Nat.zero_lt_one this
  · intro h0 hh
    unfold getStats
    simp [h0, hh]
  · intro h1
    unfold getStats
    simp only
    rw [Nat.max_eq_right h1]

/-- Witness for C10 at a concrete instance. -/
theorem c10_witness : (getStats (initCache 1800 1000 "strong") 0).hitRate = 0 :=
  (c10_hit_rate (initCache 1800 1000 "strong") 0).2.1 rfl rfl

/-- Claim C1 (code bug): in every state reachable without the 30-second
timeout firing, the waiter still holds the deduplicator lock and its
future is unresolved — the primary caller can never enter its notification
block, so the waiter never observes the computed result; the only exit is
the timeout error.  This contradicts the claim (and the source's own
comment "Release lock before waiting") that all N concurrent callers
observe the same result. -/
theorem c1_dedup_waiter_starves (s : DedupState) (h : DedupReach s) :
    s.waiterHoldsLock = true ∧ s.waiterResolved = false ∧ s.resultPublished = false := by
  induction h with
  | init => exact ⟨rfl, rfl, rfl⟩
  | step hr hs ih =>
    rcases hs with ⟨p, l, w⟩ | ⟨s', hdone, hfree⟩ | ⟨s', hres⟩
    · exact ih
    · rw [ih.1] at hfree
      exact Bool.noConfusion hfree
    · rw [ih.2.1] at hres
      exact Bool.noConfusion hres

/-- Witness for C1 at the initial configuration. -/
theorem c1_witness :
    (⟨false, false, true, false⟩ : DedupState).waiterResolved = false :=
  (c1_dedup_waiter_starves ⟨false, false, true, false⟩ DedupReach.init).2.1

/-! ## Capacity invariant (C5) -/

theorem length_insertReplace {α β : Type} [DecidableEq α] (l : List (α × β)) (k : α) (v : β) :
    (insertReplace l k v).length = if (dlook l k).isSome then l.length else l.length + 1 := by
  induction l with
  | nil => simp [insertReplace, dlook]
  | cons kv rest ih =>
    by_cases h : k = kv.1
    · simp [insertReplace, h, dlook]
    · have h' : ¬ k = kv.1 := h
      simp only [insertReplace, if_neg h', List.length_cons, dlook, ih]
      by_cases hs : (dlook rest k).isSome
      · rw [if_pos hs, if_pos hs]
      · rw [if_neg hs, if_neg hs]

theorem pair_eq_of_mem_nodupKeys {α β : Type} [DecidableEq α] {l : List (α × β)} {a : α}
    {v w : β} (hn : NodupKeys l) (hv : (a, v) ∈ l) (hw : (a, w) ∈ l) : v = w := by
  have h1 := dlook_of_mem_nodup hn hv
  have h2 := dlook_of_mem_nodup hn hw
  rw [h1] at h2
  injection h2

theorem nodupKeys_perm {α β : Type} {l l' : List (α × β)} (hp : List.Perm l l')
    (hn : NodupKeys l) : NodupKeys l' :=
  ((hp.map Prod.fst).nodup_iff).mp hn

/-- The evicted key list of `_evict_lru`: distinct keys, all present. -/
theorem toEvict_facts (c : SimilarityCache) (hn : NodupKeys c.cache) :
    (keysOf ((List.insertionSort rankLE c.cache).take
        (max 1 ((List.insertionSort rankLE c.cache).length / 5)))).Nodup ∧
    (∀ k ∈ keysOf ((List.insertionSort rankLE c.cache).take
        (max 1 ((List.insertionSort rankLE c.cache).length / 5))), k ∈ keysOf c.cache) ∧
    (keysOf ((List.insertionSort rankLE c.cache).take
        (max 1 ((List.insertionSort rankLE c.cache).length / 5)))).length =
      min (max 1 ((List.insertionSort rankLE c.cache).length / 5)) c.cache.length := by
  have hperm : List.Perm (List.insertionSort rankLE c.cache) c.cache :=
    List.perm_insertionSort rankLE c.cache
  have hns : NodupKeys (List.insertionSort rankLE c.cache) := nodupKeys_perm hperm.symm hn
  refine ⟨?_, ?_, ?_⟩
  · exact List.Nodup.sublist (List.Sublist.map Prod.fst (List.take_sublist _ _)) hns
  · intro k hk
    rcases List.mem_map.mp hk with ⟨kv, hkv, rfl⟩
    have : kv ∈ c.cache := hperm.mem_iff.mp (List.mem_of_mem_take hkv)
    exact List.mem_map.mpr ⟨kv, this, rfl⟩
  · rw [show (keysOf ((List.insertionSort rankLE c.cache).take
        (max 1 ((List.insertionSort rankLE c.cache).length / 5)))).length =
        ((List.insertionSort rankLE c.cache).take
          (max 1 ((List.insertionSort rankLE c.cache).length / 5))).length from
      List.length_map _ _]
    rw [List.length_take, hperm.length_eq]

/-- With the store at or above capacity, `_evict_lru` removes exactly
`max(1, n // 5)` entries (saturating at the store size). -/
theorem evict_result_length (c : SimilarityCache) (hn : NodupKeys c.cache)
    (hfull : ¬ c.cache.length < c.maxSize) :
    ((evictLru c).1).cache.length = c.cache.length - max 1 (c.cache.length / 5) := by
  have hperm : List.Perm (List.insertionSort rankLE c.cache) c.cache :=
    List.perm_insertionSort rankLE c.cache
  have hlen : (List.insertionSort rankLE c.cache).length = c.cache.length := hperm.length_eq
  have hfacts := toEvict_facts c hn
  rw [(evict_cache_eq c hfull).1,
    length_foldl_eraseKey _ _ hn hfacts.1 hfacts.2.1, hfacts.2.2, hlen]
  omega

/-- With the store at or above capacity, every entry evicted by
`_evict_lru` ranks no higher than every surviving entry under the
ascending `(hit_count, timestamp)` order. -/
theorem evict_rank_dominated (c : SimilarityCache) (hn : NodupKeys c.cache)
    (hfull : ¬ c.cache.length < c.maxSize) :
    ∀ kv ∈ c.cache, kv ∉ ((evictLru c).1).cache →
      ∀ kv₂ ∈ ((evictLru c).1).cache, rankLE kv kv₂ := by
  intro kv hkv hgone kv₂ hkv₂
  have hperm : List.Perm (List.insertionSort rankLE c.cache) c.cache :=
    List.perm_insertionSort rankLE c.cache
  have hns : NodupKeys (List.insertionSort rankLE c.cache) := nodupKeys_perm hperm.symm hn
  have hsorted : List.Sorted rankLE (List.insertionSort rankLE c.cache) :=
    List.sorted_insertionSort rankLE c.cache
  have hmemres := mem_foldl_eraseKey
    (keysOf ((List.insertionSort rankLE c.cache).take
      (max 1 ((List.insertionSort rankLE c.cache).length / 5)))) c.cache
  rw [(evict_cache_eq c hfull).1] at hgone hkv₂
  -- the evicted entry lies in the taken prefix of the sorted list
  have hin : kv.1 ∈ keysOf ((List.insertionSort rankLE c.cache).take
      (max 1 ((List.insertionSort rankLE c.cache).length / 5))) := by
    by_contra hni
    exact hgone ((hmemres kv hn).mpr ⟨hkv, hni⟩)
  have hktake : kv ∈ (List.insertionSort rankLE c.cache).take
      (max 1 ((List.insertionSort rankLE c.cache).length / 5)) := by
    rcases List.mem_map.mp hin with ⟨kv', hkv', hfst⟩
    have hmem' : kv' ∈ c.cache := hperm.mem_iff.mp (List.mem_of_mem_take hkv')
    have : kv'.2 = kv.2 := by
      rcases kv with ⟨k1, v1⟩
      rcases kv' with ⟨k1', v1'⟩
      simp only at hfst
      rw [hfst] at hmem'
      exact pair_eq_of_mem_nodupKeys hn hmem' hkv
    have : kv' = kv := Prod.ext hfst this
    rw [← this]
    exact hkv'
  -- the survivor lies in the dropped suffix of the sorted list
  have hres2 := (hmemres kv₂ hn).mp hkv₂
  have hmem2 : kv₂ ∈ List.insertionSort rankLE c.cache := hperm.mem_iff.mpr hres2.1
  have hdrop : kv₂ ∈ (List.insertionSort rankLE c.cache).drop
      (max 1 ((List.insertionSort rankLE c.cache).length / 5)) := by
    rcases (List.mem_append.mp (by
        rw [List.take_append_drop]
        exact hmem2 : kv₂ ∈ (List.insertionSort rankLE c.cache).take
            (max 1 ((List.insertionSort rankLE c.cache).length / 5)) ++
          (List.insertionSort rankLE c.cache).drop
            (max 1 ((List.insertionSort rankLE c.cache).length / 5)))) with h2 | h2
    · exact absurd (List.mem_map.mpr ⟨kv₂, h2, rfl⟩) hres2.2
    · exact h2
  exact sorted_take_drop hsorted _ hktake hdrop

/-- One `set` keeps the store within capacity. -/
theorem cacheSet_length_le (H : HashFns) (c : SimilarityCache) (q r : String)
    (gt : Option String) (now : Int) (hn : NodupKeys c.cache) (hmax : 1 ≤ c.maxSize)
    (hle : c.cache.length ≤ c.maxSize) :
    (cacheSet H c q r gt now).cache.length ≤ c.maxSize := by
  rw [cacheSet_cache, length_insertReplace]
  by_cases hsmall : c.cache.length < c.maxSize
  · have he : (evictLru c).1 = c := by rw [evict_id_small c hsmall]
    rw [he]
    by_cases hs : (dlook c.cache (genQueryHash H q gt)).isSome
    · rw [if_pos hs]
      omega
    · rw [if_neg hs]
      omega
  · have hlen := evict_result_length c hn hsmall
    have : ((evictLru c).1).cache.length + 1 ≤ c.maxSize := by
      omega
    by_cases hs : (dlook ((evictLru c).1).cache (genQueryHash H q gt)).isSome
    · rw [if_pos hs]
      omega
    · rw [if_neg hs]
      omega

/-- Claim C5: starting from a freshly constructed cache with positive
capacity, the store never exceeds `max_size` after any sequence of `set`
operations; and whenever `set` finds the store at capacity, `_evict_lru`
removes exactly the `max(1, n // 5)` entries (at least one, 20% of the
store) that come first in the stable ascending sort by
`(hit_count, timestamp)` — every evicted entry ranks no higher than every
survivor. -/
theorem c5_capacity_and_eviction (H : HashFns) (ttl : Int) (maxSize : Nat) (th : String)
    (ops : List (String × String × Option String × Int)) (hmax : 1 ≤ maxSize) :
    (applySets H ops (initCache ttl maxSize th)).cache.length ≤ maxSize ∧
    (∀ c : SimilarityCache, NodupKeys c.cache → c.maxSize ≤ c.cache.length →
      ((evictLru c).1).cache.length = c.cache.length - max 1 (c.cache.length / 5) ∧
      1 ≤ max 1 (c.cache.length / 5) ∧
      (∀ kv ∈ c.cache, kv ∉ ((evictLru c).1).cache →
        ∀ kv₂ ∈ ((evictLru c).1).cache, rankLE kv kv₂)) := by
  constructor
  · have key : ∀ (ops' : List (String × String × Option String × Int))
        (c : SimilarityCache), NodupKeys c.cache → c.cache.length ≤ c.maxSize →
        1 ≤ c.maxSize →
        NodupKeys (applySets H ops' c).cache ∧
        (applySets H ops' c).cache.length ≤ (applySets H ops' c).maxSize ∧
        (applySets H ops' c).maxSize = c.maxSize := by
      intro ops'
      induction ops' with
      | nil => exact fun c hn hle hm => ⟨hn, hle, rfl⟩
      | cons op rest ih =>
        intro c hn hle hm
        have hstep := cacheSet_length_le H c op.1 op.2.1 op.2.2.1 op.2.2.2 hn hm hle
        have hnod := nodup_cacheSet H c op.1 op.2.1 op.2.2.1 op.2.2.2 hn
        have hms : (cacheSet H c op.1 op.2.1 op.2.2.1 op.2.2.2).maxSize = c.maxSize :=
          (cacheSet_fields H c op.1 op.2.1 op.2.2.1 op.2.2.2).2
        have := ih (cacheSet H c op.1 op.2.1 op.2.2.1 op.2.2.2) hnod
          (by rw [hms]; exact hstep) (by rw [hms]; exact hm)
        have hcons : applySets H (op :: rest) c =
            applySets H rest (cacheSet H c op.1 op.2.1 op.2.2.1 op.2.2.2) := rfl
        rw [hcons]
        exact ⟨this.1, this.2.1, by rw [this.2.2, hms]⟩
    have h := key ops (initCache ttl maxSize th) List.nodup_nil (by simp [initCache]) hmax
    rw [h.2.2] at h
    exact h.2.1
  · intro c hn hfull
    have hfull' : ¬ c.cache.length < c.maxSize := by omega
    exact ⟨evict_result_length c hn hfull', le_max_left _ _,
      evict_rank_dominated c hn hfull'⟩

/-- Witness for C5 at a concrete instance: capacity 2, three inserts. -/
theorem c5_witness :
    (applySets H0 [("q one", "r1", none, 0), ("q two", "r2", none, 1),
        ("q three", "r3", none, 2)] (initCache 5 2 "strong")).cache.length ≤ 2 :=
  (c5_capacity_and_eviction H0 5 2 "strong"
    [("q one", "r1", none, 0), ("q two", "r2", none, 1), ("q three", "r3", none, 2)]
    (by decide)).1

/-! ## LSH bucket lemmas (C8, C9) -/

theorem mem_insertIfAbsent {α : Type} [DecidableEq α] (x y : α) (l : List α) :
    y ∈ insertIfAbsent x l ↔ y = x ∨ y ∈ l := by
  unfold insertIfAbsent
  by_cases h : x ∈ l
  · rw [if_pos h]
    constructor
    · exact fun hy => Or.inr hy
    · rintro (rfl | hy)
      · exact h
      · exact hy
  · rw [if_neg h]
    simp [or_comm]

theorem self_mem_insertIfAbsent {α : Type} [DecidableEq α] (x : α) (l : List α) :
    x ∈ insertIfAbsent x l := (mem_insertIfAbsent x x l).mpr (Or.inl rfl)

theorem slot_addToSlot_self (B : LshBuckets) (i : Nat) (k fp : String) :
    fp ∈ slotContents (addToSlot B i k fp) i k := by
  unfold addToSlot slotContents getBand
  rw [dlook_insertReplace_self]
  simp only [Option.getD_some]
  rw [dlook_insertReplace_self]
  exact self_mem_insertIfAbsent _ _

theorem slot_addToSlot_mono (B : LshBuckets) (i j : Nat) (k k' fp x : String)
    (hx : x ∈ slotContents B j k') : x ∈ slotContents (addToSlot B i k fp) j k' := by
  unfold addToSlot slotContents getBand
  by_cases hij : j = i
  · subst hij
    rw [dlook_insertReplace_self]
    simp only [Option.getD_some]
    by_cases hkk : k' = k
    · subst hkk
      rw [dlook_insertReplace_self]
      simp only [Option.getD_some]
      unfold slotContents getBand at hx
      exact (mem_insertIfAbsent _ _ _).mpr (Or.inr hx)
    · rw [dlook_insertReplace_ne _ _ hkk]
      unfold slotContents getBand at hx
      exact hx
  · rw [dlook_insertReplace_ne _ _ hij]
    unfold slotContents getBand at hx
    exact hx

theorem slot_addToSlot_rev (B : LshBuckets) (i j : Nat) (k k' fp x : String)
    (hx : x ∈ slotContents (addToSlot B i k fp) j k') :
    (x = fp ∧ j = i ∧ k' = k) ∨ x ∈ slotContents B j k' := by
  unfold addToSlot slotContents getBand at hx
  by_cases hij : j = i
  · subst hij
    rw [dlook_insertReplace_self] at hx
    simp only [Option.getD_some] at hx
    by_cases hkk : k' = k
    · subst hkk
      rw [dlook_insertReplace_self] at hx
      simp only [Option.getD_some] at hx
      rcases (mem_insertIfAbsent _ _ _).mp hx with h | h
      · exact Or.inl ⟨h, rfl, rfl⟩
      · right
        unfold slotContents getBand
        exact h
    · rw [dlook_insertReplace_ne _ _ hkk] at hx
      right
      unfold slotContents getBand
      exact hx
  · rw [dlook_insertReplace_ne _ _ hij] at hx
    right
    unfold slotContents getBand
    exact hx

theorem countFp_eq (B : LshBuckets) (fp : String) :
    countFp B fp = ((B : List (Nat × List (String × List String))).map
      (fun band => bandCount band.2 fp)).sum := rfl

theorem bandCount_insertReplace_none (m : List (String × List String)) (k : String)
    (v : List String) (fp : String) (h : dlook m k = none) :
    bandCount (insertReplace m k v) fp = bandCount m fp + (if fp ∈ v then 1 else 0) := by
  induction m with
  | nil => simp [insertReplace, bandCount]
  | cons b rest ih =>
    rw [dlook] at h
    by_cases hk : k = b.1
    · rw [if_pos hk] at h
      exact Option.noConfusion h
    · rw [if_neg hk] at h
      simp only [insertReplace, if_neg hk, bandCount, List.map_cons, List.sum_cons] at ih ⊢
      rw [ih h]
      omega

theorem bandCount_insertReplace_some (m : List (String × List String)) (k : String)
    (v w : List String) (fp : String) (h : dlook m k = some w) :
    bandCount (insertReplace m k v) fp + (if fp ∈ w then 1 else 0) =
      bandCount m fp + (if fp ∈ v then 1 else 0) := by
  induction m with
  | nil => simp [dlook] at h
  | cons b rest ih =>
    rw [dlook] at h
    by_cases hk : k = b.1
    · rw [if_pos hk] at h
      have hw : b.2 = w := by injection h
      simp only [insertReplace, if_pos hk, bandCount, List.map_cons, List.sum_cons, hw]
      omega
    · rw [if_neg hk] at h
      simp only [insertReplace, if_neg hk, bandCount, List.map_cons, List.sum_cons] at ih ⊢
      have := ih h
      omega

theorem countFp_insertReplace_none (B : LshBuckets) (i : Nat)
    (m' : List (String × List String)) (fp : String)
    (h : dlook (B : List (Nat × List (String × List String))) i = none) :
    countFp (insertReplace (B : List (Nat × List (String × List String))) i m') fp =
      countFp B fp + bandCount m' fp := by
  rw [countFp_eq, countFp_eq]
  induction (B : List (Nat × List (String × List String))) with
  | nil => simp [insertReplace, bandCount]
  | cons b rest ih =>
    rw [dlook] at h
    by_cases hk : i = b.1
    · rw [if_pos hk] at h
      exact Option.noConfusion h
    · rw [if_neg hk] at h
      simp only [insertReplace, if_neg hk, List.map_cons, List.sum_cons] at ih ⊢
      rw [ih h]
      omega

theorem countFp_insertReplace_some (B : LshBuckets) (i : Nat)
    (m m' : List (String × List String)) (fp : String)
    (h : dlook (B : List (Nat × List (String × List String))) i = some m) :
    countFp (insertReplace (B : List (Nat × List (String × List String))) i m') fp +
      bandCount m fp = countFp B fp + bandCount m' fp := by
  rw [countFp_eq, countFp_eq]
  induction (B : List (Nat × List (String × List String))) with
  | nil => simp [dlook] at h
  | cons b rest ih =>
    rw [dlook] at h
    by_cases hk : i = b.1
    · rw [if_pos hk] at h
      have hm : b.2 = m := by injection h
      simp only [insertReplace, if_pos hk, List.map_cons, List.sum_cons, hm]
      omega
    · rw [if_neg hk] at h
      simp only [insertReplace, if_neg hk, List.map_cons, List.sum_cons] at ih ⊢
      have := ih h
      omega

theorem countFp_addToSlot (B : LshBuckets) (i : Nat) (k fp : String) :
    countFp (addToSlot B i k fp) fp =
      countFp B fp + (if fp ∈ slotContents B i k then 0 else 1) := by
  unfold addToSlot slotContents getBand
  rcases hB : dlook (B : List (Nat × List (String × List String))) i with _ | m
  · simp only [hB, Option.getD_none]
    rw [countFp_insertReplace_none B i _ fp hB]
    simp only [dlook, Option.getD_none]
    rw [bandCount_insertReplace_none [] k _ fp rfl]
    simp only [bandCount, List.map_nil, List.sum_nil, Nat.zero_add]
    rw [if_pos (self_mem_insertIfAbsent fp []), if_neg (List.not_mem_nil fp)]
  · simp only [hB, Option.getD_some]
    have hcount := countFp_insertReplace_some B i m
      (insertReplace m k (insertIfAbsent fp ((dlook m k).getD []))) fp hB
    rcases Option.eq_none_or_eq_some (dlook m k) with hm | ⟨w, hm⟩
    · simp only [hm, Option.getD_none] at hcount ⊢
      rw [bandCount_insertReplace_none m k _ fp hm] at hcount
      rw [if_pos (self_mem_insertIfAbsent fp [])] at hcount
      rw [if_neg (List.not_mem_nil fp)]
      omega
    · simp only [hm, Option.getD_some] at hcount ⊢
      have hband := bandCount_insertReplace_some m k (insertIfAbsent fp w) w fp hm
      rw [if_pos (self_mem_insertIfAbsent fp w)] at hband
      by_cases hw : fp ∈ w
      · rw [if_pos hw] at hband ⊢
        omega
      · rw [if_neg hw] at hband ⊢
        omega

theorem countFp_zero_not_mem (B : LshBuckets) (fp : String) (h0 : countFp B fp = 0) :
    ∀ i k, fp ∉ slotContents B i k := by
  intro i k hmem
  unfold slotContents getBand at hmem
  rcases hB : dlook (B : List (Nat × List (String × List String))) i with _ | m
  · rw [hB] at hmem
    simp [dlook] at hmem
  · rw [hB] at hmem
    simp only [Option.getD_some] at hmem
    rcases hm : dlook m k with _ | w
    · rw [hm] at hmem
      simp at hmem
    · rw [hm] at hmem
      simp only [Option.getD_some] at hmem
      have h1 : bandCount m fp ≥ 1 := by
        have hin : (if fp ∈ w then 1 else 0) ∈ m.map (fun b => if fp ∈ b.2 then 1 else 0) :=
          List.mem_map.mpr ⟨(k, w), dlook_eq_some_mem hm, rfl⟩
        rw [if_pos hmem] at hin
        exact List.single_le_sum (fun x _ => Nat.zero_le x) 1 hin
      have h2 : countFp B fp ≥ bandCount m fp := by
        rw [countFp_eq]
        exact List.single_le_sum (fun x _ => Nat.zero_le x) _
          (List.mem_map.mpr ⟨(i, m), dlook_eq_some_mem hB, rfl⟩)
      omega

theorem foldBands_mono (key : Nat → String) (fp : String) (bs : List Nat) (B : LshBuckets)
    (j : Nat) (k' x : String) (hx : x ∈ slotContents B j k') :
    x ∈ slotContents (foldBands key fp bs B) j k' := by
  induction bs generalizing B with
  | nil => exact hx
  | cons b rest ih =>
    exact ih _ (slot_addToSlot_mono B b j (key b) k' fp x hx)

theorem foldBands_mem (key : Nat → String) (fp : String) (bs : List Nat) (B : LshBuckets) :
    ∀ i ∈ bs, fp ∈ slotContents (foldBands key fp bs B) i (key i) := by
  induction bs generalizing B with
  | nil => intro i hi; simp at hi
  | cons b rest ih =>
    intro i hi
    rcases List.mem_cons.mp hi with h1 | h1
    · subst h1
      exact foldBands_mono key fp rest _ i (key i) fp (slot_addToSlot_self B i (key i) fp)
    · exact ih _ i h1

theorem foldBands_fresh_count (key : Nat → String) (fp : String) (bs : List Nat)
    (B : LshBuckets) (hnd : bs.Nodup) (hfresh : ∀ j ∈ bs, ∀ k, fp ∉ slotContents B j k) :
    countFp (foldBands key fp bs B) fp = countFp B fp + bs.length := by
  induction bs generalizing B with
  | nil => simp [foldBands]
  | cons b rest ih =>
    have hstep : countFp (addToSlot B b (key b) fp) fp = countFp B fp + 1 := by
      rw [countFp_addToSlot, if_neg (hfresh b (List.mem_cons_self _ _) (key b))]
    have hfresh' : ∀ j ∈ rest, ∀ k, fp ∉ slotContents (addToSlot B b (key b) fp) j k := by
      intro j hj k hmem
      rcases slot_addToSlot_rev B b j (key b) k fp fp hmem with ⟨_, hji, _⟩ | hold
      · rw [hji] at hj
        exact (List.nodup_cons.mp hnd).1 hj
      · exact hfresh j (List.mem_cons_of_mem _ hj) k hold
    show countFp (foldBands key fp rest (addToSlot B b (key b) fp)) fp = _
    rw [ih _ (List.nodup_cons.mp hnd).2 hfresh', hstep, List.length_cons]
    omega

theorem foldBands_present_count (key : Nat → String) (fp : String) (bs : List Nat)
    (B : LshBuckets) (hpres : ∀ i ∈ bs, fp ∈ slotContents B i (key i)) :
    countFp (foldBands key fp bs B) fp = countFp B fp := by
  induction bs generalizing B with
  | nil => rfl
  | cons b rest ih =>
    have hstep : countFp (addToSlot B b (key b) fp) fp = countFp B fp := by
      rw [countFp_addToSlot, if_pos (hpres b (List.mem_cons_self _ _))]
      omega
    have hpres' : ∀ i ∈ rest, fp ∈ slotContents (addToSlot B b (key b) fp) i (key i) :=
      fun i hi => slot_addToSlot_mono B b i (key b) (key i) fp fp
        (hpres i (List.mem_cons_of_mem _ hi))
    show countFp (foldBands key fp rest (addToSlot B b (key b) fp)) fp = _
    rw [ih _ hpres', hstep]

theorem addToLsh_buckets (H : HashFns) (L : MinHashLSH) (fp : String) (sig : List Nat) :
    (addToLsh H L fp sig).buckets =
      foldBands (fun b => bucketKey H (bandSlice sig L.rows b)) fp
        (List.range L.bands) L.buckets := rfl

theorem addToLsh_numPerm (H : HashFns) (L : MinHashLSH) (fp : String) (sig : List Nat) :
    (addToLsh H L fp sig).numPerm = L.numPerm := rfl

theorem addQuery_eq (H : HashFns) (L : MinHashLSH) (q fp : String) :
    addQuery H L q fp = addToLsh H L fp (computeMinhash H L.numPerm (getShingles q)) := rfl

/-- Claim C8: inserting the same (query, domain) twice leaves its
fingerprint with total bucket-membership count exactly 16 — one bucket per
band — across the whole Similarity Index: the first `set` adds it to one
bucket in each of the 16 bands, and the second `set` maps to the same
(band, bucket) slots, where the set-semantics `add` is a no-op. -/
theorem c8_idempotent_reinsertion (H : HashFns) (c : SimilarityCache) (q r r' : String)
    (gt : Option String) (now now' : Int) (hn64 : c.lsh.numPerm = 64)
    (h0 : countFp c.lsh.buckets (genQueryHash H q gt) = 0) :
    countFp (cacheSet H c q r gt now).lsh.buckets (genQueryHash H q gt) = 16 ∧
    countFp (cacheSet H (cacheSet H c q r gt now) q r' gt now').lsh.buckets
      (genQueryHash H q gt) = 16 := by
  have hb : c.lsh.bands = 16 := by
    unfold MinHashLSH.bands
    rw [hn64]
  have hL1 : (cacheSet H c q r gt now).lsh =
      addToLsh H c.lsh (genQueryHash H q gt)
        (computeMinhash H c.lsh.numPerm (getShingles q)) := by
    rw [cacheSet_lsh, addQuery_eq]
  have hcount1 : countFp (cacheSet H c q r gt now).lsh.buckets (genQueryHash H q gt) = 16 := by
    rw [hL1, addToLsh_buckets,
      foldBands_fresh_count _ _ _ _ (List.nodup_range _) ?_, h0, List.length_range, hb]
    intro j hj k
    exact countFp_zero_not_mem c.lsh.buckets (genQueryHash H q gt) h0 j k
  refine ⟨hcount1, ?_⟩
  have hL2 : (cacheSet H (cacheSet H c q r gt now) q r' gt now').lsh =
      addToLsh H (cacheSet H c q r gt now).lsh (genQueryHash H q gt)
        (computeMinhash H (cacheSet H c q r gt now).lsh.numPerm (getShingles q)) := by
    rw [cacheSet_lsh (H := H) (c := cacheSet H c q r gt now), addQuery_eq]
  have hnp1 : (cacheSet H c q r gt now).lsh.numPerm = c.lsh.numPerm := by
    rw [hL1, addToLsh_numPerm]
  have hbands1 : (cacheSet H c q r gt now).lsh.bands = c.lsh.bands := by
    unfold MinHashLSH.bands
    rw [hnp1]
  have hrows1 : (cacheSet H c q r gt now).lsh.rows = c.lsh.rows := by
    unfold MinHashLSH.rows MinHashLSH.bands
    rw [hnp1]
  rw [hL2, addToLsh_buckets, hnp1, hrows1, hbands1, hb]
  have hpres : ∀ i ∈ List.range 16,
      (genQueryHash H q gt) ∈ slotContents (cacheSet H c q r gt now).lsh.buckets i
        (bucketKey H (bandSlice (computeMinhash H c.lsh.numPerm (getShingles q))
          c.lsh.rows i)) := by
    intro i hi
    rw [hL1, addToLsh_buckets]
    have := foldBands_mem
      (fun b => bucketKey H (bandSlice (computeMinhash H c.lsh.numPerm (getShingles q))
        c.lsh.rows b))
      (genQueryHash H q gt) (List.range c.lsh.bands) c.lsh.buckets i (by rw [hb]; exact hi)
    exact this
  rw [foldBands_present_count _ _ _ _ hpres, hcount1]

/-- Witness for C8 at a concrete instance. -/
theorem c8_witness :
    countFp (cacheSet H0 (cacheSet H0 (initCache 5 10 "strong") "hello world" "r1" none 0)
        "hello world" "r2" none 1).lsh.buckets (genQueryHash H0 "hello world" none) = 16 :=
  (c8_idempotent_reinsertion H0 (initCache 5 10 "strong") "hello world" "r1" "r2" none 0 1
    rfl rfl).2

/-! ## Candidate lookup (C9) -/

theorem mem_foldl_insertIfAbsent {α : Type} [DecidableEq α] (l acc : List α) (x : α) :
    x ∈ l.foldl (fun a y => insertIfAbsent y a) acc ↔ x ∈ acc ∨ x ∈ l := by
  induction l generalizing acc with
  | nil => simp
  | cons y rest ih =>
    simp only [List.foldl_cons, ih, mem_insertIfAbsent, List.mem_cons]
    tauto

theorem mem_getCandidates (H : HashFns) (L : MinHashLSH) (sig : List Nat) (x : String) :
    x ∈ getCandidates H L sig ↔
      ∃ b ∈ List.range L.bands,
        x ∈ slotContents L.buckets b (bucketKey H (bandSlice sig L.rows b)) := by
  unfold getCandidates
  have key : ∀ (bs : List Nat) (acc : List String),
      x ∈ bs.foldl (fun acc band =>
          (slotContents L.buckets band (bucketKey H (bandSlice sig L.rows band))).foldl
            (fun a fp => insertIfAbsent fp a) acc) acc ↔
        x ∈ acc ∨ ∃ b ∈ bs,
          x ∈ slotContents L.buckets b (bucketKey H (bandSlice sig L.rows b)) := by
    intro bs
    induction bs with
    | nil => simp
    | cons b rest ih =>
      intro acc
      simp only [List.foldl_cons, ih, mem_foldl_insertIfAbsent, List.mem_cons]
      constructor
      · rintro (⟨h1 | h1⟩ | ⟨b', hb', h2⟩)
        · exact Or.inl h1
        · exact Or.inr ⟨b, Or.inl rfl, h1⟩
        · exact Or.inr ⟨b', Or.inr hb', h2⟩
      · rintro (h1 | ⟨b', hb' | hb', h2⟩)
        · exact Or.inl (Or.inl h1)
        · rw [hb'] at h2
          exact Or.inl (Or.inr h2)
        · exact Or.inr ⟨b', hb', h2⟩
  rw [key]
  simp

/-- Claim C9: the LSH lookup returns exactly the union of the fingerprint
sets in the `bands` (= 16 for the 64-permutation configuration used
throughout) (band, bucket) slots the probe signature maps to; consequently
a stored fingerprint whose signature agrees with the probe on all rows of
at least one band is always among the candidates. -/
theorem c9_lsh_candidates (H : HashFns) (L : MinHashLSH) (fp : String)
    (sig probe : List Nat) (hnp : L.numPerm = 64) :
    L.bands = 16 ∧
    (∀ x, x ∈ getCandidates H L probe ↔
      ∃ b ∈ List.range L.bands,
        x ∈ slotContents L.buckets b (bucketKey H (bandSlice probe L.rows b))) ∧
    ((∃ b < L.bands, bandSlice probe L.rows b = bandSlice sig L.rows b) →
      fp ∈ getCandidates H (addToLsh H L fp sig) probe) := by
  have hb : L.bands = 16 := by
    unfold MinHashLSH.bands
    rw [hnp]
  refine ⟨hb, fun x => mem_getCandidates H L probe x, ?_⟩
  rintro ⟨b, hblt, heq⟩
  have hBeq : (addToLsh H L fp sig).buckets =
      foldBands (fun b' => bucketKey H (bandSlice sig L.rows b')) fp
        (List.range L.bands) L.buckets := addToLsh_buckets H L fp sig
  have hmem : fp ∈ slotContents (addToLsh H L fp sig).buckets b
      (bucketKey H (bandSlice sig L.rows b)) := by
    rw [hBeq]
    exact foldBands_mem _ fp (List.range L.bands) L.buckets b (List.mem_range.mpr hblt)
  rw [mem_getCandidates]
  refine ⟨b, List.mem_range.mpr hblt, ?_⟩
  show fp ∈ slotContents (addToLsh H L fp sig).buckets b
    (bucketKey H (bandSlice probe L.rows b))
  rw [heq]
  exact hmem

/-- Witness for C9 at a concrete instance. -/
theorem c9_witness :
    "fp1" ∈ getCandidates H0
      (addToLsh H0 ({ numPerm := 64, threshold := 3/4 } : MinHashLSH) "fp1"
        (List.replicate 64 0))
      (List.replicate 64 0) :=
  (c9_lsh_candidates H0 ({ numPerm := 64, threshold := 3/4 } : MinHashLSH) "fp1"
    (List.replicate 64 0) (List.replicate 64 0) rfl).2.2 ⟨0, by decide, rfl⟩

/-! ## Similarity-path selection (C7) -/

theorem compatible_some_iff (s : String) (e : CacheEntry) :
    compatible (some s) e = true ↔ (e.gameType = s ∨ e.gameType = "generic") := by
  unfold compatible
  simp

theorem mem_findSimilar_iff (H : HashFns) (L : MinHashLSH) (q : String)
    (sq : List (String × String)) (p : String × ℚ) :
    p ∈ findSimilar H L q sq ↔
      (p.1 ∈ getCandidates H L (querySig H L q) ∧
       ∃ cq, dlook sq p.1 = some cq ∧ p.2 = candScore H L q cq ∧ L.threshold ≤ p.2) := by
  unfold findSimilar
  rw [List.mem_insertionSort, List.mem_filterMap]
  constructor
  · rintro ⟨h, hcand, hf⟩
    rcases hd : dlook sq h with _ | cq
    · rw [hd] at hf
      exact Option.noConfusion hf
    · rw [hd] at hf
      simp only at hf
      split at hf
      · rename_i hth
        have hp : p = (h, (countMatches (computeMinhash H L.numPerm (getShingles q))
            (computeMinhash H L.numPerm (getShingles cq)) : ℚ) / (L.numPerm : ℚ)) := by
          injection hf with hf'
          exact hf'.symm
        rw [hp]
        refine ⟨hcand, cq, hd, rfl, hth⟩
      · exact Option.noConfusion hf
  · rintro ⟨hcand, cq, hd, hs, hth⟩
    refine ⟨p.1, hcand, ?_⟩
    rw [hd]
    simp only
    rw [show (countMatches (computeMinhash H L.numPerm (getShingles q))
        (computeMinhash H L.numPerm (getShingles cq)) : ℚ) / (L.numPerm : ℚ) =
      candScore H L q cq from rfl]
    rw [← hs]
    rw [if_pos (by rw [hs] at hth ⊢; exact hth)]

theorem sorted_findSimilar (H : HashFns) (L : MinHashLSH) (q : String)
    (sq : List (String × String)) : List.Sorted simGE (findSimilar H L q sq) :=
  List.sorted_insertionSort simGE _

theorem simLoop_fst_some (gt : Option String) (l : List (String × ℚ)) (c : SimilarityCache)
    (r : String) (hr : (simLoop gt l c).1 = some r) :
    ∃ l₁ p l₂ e, l = l₁ ++ p :: l₂ ∧ dlook c.cache p.1 = some e ∧
      compatible gt e = true ∧ r = e.response ++ cacheNote p.2 ∧
      (∀ p' ∈ l₁, ∀ e', dlook c.cache p'.1 = some e' → compatible gt e' = false) := by
  induction l generalizing c with
  | nil =>
    simp [simLoop] at hr
  | cons p rest ih =>
    rcases p with ⟨h, s⟩
    rcases hd : dlook c.cache h with _ | e
    · rw [show (simLoop gt ((h, s) :: rest) c).1 = (simLoop gt rest c).1 by
        simp only [simLoop, hd]] at hr
      rcases ih c hr with ⟨l₁, p', l₂, e', hsplit, hde, hce, hre, hfail⟩
      refine ⟨(h, s) :: l₁, p', l₂, e', by rw [hsplit]; rfl, hde, hce, hre, ?_⟩
      intro p'' hp'' e'' he''
      rcases List.mem_cons.mp hp'' with h1 | h1
      · rw [h1] at he''
        simp only at he''
        rw [hd] at he''
        exact Option.noConfusion he''
      · exact hfail p'' h1 e'' he''
    · by_cases hc : compatible gt e = true
      · rw [show (simLoop gt ((h, s) :: rest) c).1 = some (e.response ++ cacheNote s) by
          simp only [simLoop, hd, hc, if_true]] at hr
        have hre : r = e.response ++ cacheNote s := by
          injection hr with hr'
          exact hr'.symm
        exact ⟨[], (h, s), rest, e, rfl, hd, hc, hre, fun p'' hp'' => absurd hp''
          (List.not_mem_nil p'')⟩
      · rw [show (simLoop gt ((h, s) :: rest) c).1 = (simLoop gt rest c).1 by
          simp only [simLoop, hd]
          rw [if_neg hc]] at hr
        rcases ih c hr with ⟨l₁, p', l₂, e', hsplit, hde, hce, hre, hfail⟩
        refine ⟨(h, s) :: l₁, p', l₂, e', by rw [hsplit]; rfl, hde, hce, hre, ?_⟩
        intro p'' hp'' e'' he''
        rcases List.mem_cons.mp hp'' with h1 | h1
        · rw [h1] at he''
          simp only at he''
          rw [hd] at he''
          have : e = e'' := by injection he''
          rw [← this]
          simpa using hc
        · exact hfail p'' h1 e'' he''

theorem sorted_split_le {l₁ l₂ : List (String × ℚ)} {p : String × ℚ}
    (hs : List.Sorted simGE (l₁ ++ p :: l₂)) : ∀ p' ∈ l₂, p'.2 ≤ p.2 := by
  have h2 : List.Sorted simGE (p :: l₂) := (List.pairwise_append.mp hs).2.1
  intro p' hp'
  exact List.rel_of_sorted_cons h2 p' hp'

/-- Claim C7: on an exact-fingerprint miss (domain-tagged request, no
expired entries), `get` reports no match exactly when no LSH candidate
passes the query-index, threshold, cache-presence and domain checks; and
any returned hit is such a candidate's response annotated with the match
percentage, with similarity at least that of every other passing
candidate. -/
theorem c7_similarity_selection (H : HashFns) (c : SimilarityCache) (q d : String)
    (now : Int) (hn : NodupKeys c.cache)
    (hfresh : ∀ kv ∈ c.cache, now - kv.2.timestamp ≤ c.ttlSeconds)
    (hmiss : dlook c.cache (genQueryHash H q (some d)) = none) :
    ((cacheGet H c q (some d) now).1 = none ↔ ¬ ∃ h s e, EligibleHit H c q d h s e) ∧
    (∀ r, (cacheGet H c q (some d) now).1 = some r →
      ∃ h s e, EligibleHit H c q d h s e ∧ r = e.response ++ cacheNote s ∧
        ∀ h' s' e', EligibleHit H c q d h' s' e' → s' ≤ s) := by
  have hcl : (cleanupExpired now { c with stats :=
      { c.stats with totalQueries := c.stats.totalQueries + 1 } }).1 =
      { c with stats := { c.stats with totalQueries := c.stats.totalQueries + 1 } } :=
    cleanup_id_of_fresh now _ (fun kv hkv => hfresh kv hkv)
  have hred : (cacheGet H c q (some d) now).1 =
      (simLoop (some d) (findSimilar H c.lsh q c.queryIndex)
        { c with stats := { c.stats with totalQueries := c.stats.totalQueries + 1 } }).1 := by
    simp only [cacheGet]
    rw [hcl]
    rw [show dlook ({ c with stats :=
        { c.stats with totalQueries := c.stats.totalQueries + 1 } } : SimilarityCache).cache
        (genQueryHash H q (some d)) = none from hmiss]
  constructor
  · rw [hred, simLoop_fst_none_iff]
    constructor
    · intro hall hex
      rcases hex with ⟨h, s, e, hcand, ⟨cq, hdq, hscq⟩, hth, hdc, hdom⟩
      have hp : (h, s) ∈ findSimilar H c.lsh q c.queryIndex :=
        (mem_findSimilar_iff H c.lsh q c.queryIndex (h, s)).mpr ⟨hcand, cq, hdq, hscq, hth⟩
      have hfalse := hall (h, s) hp e hdc
      have htrue := (compatible_some_iff d e).mpr hdom
      rw [hfalse] at htrue
      exact Bool.noConfusion htrue
    · intro hnex p hp e hde
      by_contra hne
      have htrue : compatible (some d) e = true := by
        rcases Bool.eq_false_or_eq_true (compatible (some d) e) with hb | hb
        · exact hb
        · exact absurd hb hne
      rcases (mem_findSimilar_iff H c.lsh q c.queryIndex p).mp hp with ⟨hcand, cq, hdq, hs, hth⟩
      exact hnex ⟨p.1, p.2, e, hcand, ⟨cq, hdq, hs⟩, hth, hde,
        (compatible_some_iff d e).mp htrue⟩
  · intro r hr
    rw [hred] at hr
    rcases simLoop_fst_some (some d) (findSimilar H c.lsh q c.queryIndex) _ r hr with
      ⟨l₁, p, l₂, e, hsplit, hde, hce, hre, hfail⟩
    have hpmem : p ∈ findSimilar H c.lsh q c.queryIndex := by
      rw [hsplit]
      exact List.mem_append.mpr (Or.inr (List.mem_cons_self _ _))
    rcases (mem_findSimilar_iff H c.lsh q c.queryIndex p).mp hpmem with
      ⟨hcand, cq, hdq, hs, hth⟩
    refine ⟨p.1, p.2, e, ⟨hcand, ⟨cq, hdq, hs⟩, hth, hde, (compatible_some_iff d e).mp hce⟩,
      hre, ?_⟩
    intro h' s' e' helig'
    have hp' : (h', s') ∈ findSimilar H c.lsh q c.queryIndex :=
      (mem_findSimilar_iff H c.lsh q c.queryIndex (h', s')).mpr
        ⟨helig'.1, helig'.2.1.choose, helig'.2.1.choose_spec.1, helig'.2.1.choose_spec.2,
         helig'.2.2.1⟩
    rw [hsplit] at hp'
    rcases List.mem_append.mp hp' with h1 | h1
    · have hfalse := hfail (h', s') h1 e' helig'.2.2.2.1
      have htrue := (compatible_some_iff d e').mpr helig'.2.2.2.2
      rw [hfalse] at htrue
      exact Bool.noConfusion htrue
    · rcases List.mem_cons.mp h1 with h2 | h2
      · have : s' = p.2 := by rw [← h2]
        exact le_of_eq this
      · have hsort := sorted_findSimilar H c.lsh q c.queryIndex
        rw [hsplit] at hsort
        exact sorted_split_le hsort (h', s') h2

/-- Witness for C7 at a concrete instance: empty cache, no candidates. -/
theorem c7_witness :
    (cacheGet H0 (initCache 5 10 "strong") "hello" (some "minecraft") 0).1 = none := by
  have h := c7_similarity_selection H0 (initCache 5 10 "strong") "hello" "minecraft" 0
    List.nodup_nil (fun kv hkv => absurd hkv (List.not_mem_nil kv)) rfl
  refine h.1.mpr ?_
  rintro ⟨h', s', e', helig⟩
  exact Option.noConfusion helig.2.2.2.1
